import Mathlib

/-!
Verification of the connectivity-tracking graph core (`graph_network`).

The Python source keeps, per node, a set of neighbor references
(`self.neighbors`), and a reference to a shared mutable set object
(`self.cc`) holding every node of the current connected component.
Mutable set objects are modelled by an allocation map: every node stores
the identity (`ccId`) of the set object it points at, and `ccSet` maps
object identities to their current contents.  `fresh` is the allocation
counter for new set objects, so "same Python object" is "same `ccId`".
Node objects are identified by natural numbers; `Node.MAC` and
`Node.time` (wall-clock, diagnostic only) carry no graph information and
are not modelled.
-/

/-- Mutable state of the node network: adjacency, component-object
pointers, component-object contents, and the object allocator. -/
structure St where
  nbr : Nat → Finset Nat
  ccId : Nat → Nat
  ccSet : Nat → Finset Nat
  fresh : Nat

/-- State of the `Graph` wrapper: the key set of the `self.nodes`
dictionary (a key is the identity of its node) plus the node states. -/
structure Graph where
  keys : Finset Nat
  st : St

/-- One step of the neighbor relation: `v ∈ u.neighbors`. -/
def adj (s : St) (u v : Nat) : Prop := v ∈ s.nbr u

/-- A path exists from `u` to `v` in the current neighbor graph. -/
def Reaches (s : St) (u v : Nat) : Prop := Relation.ReflTransGen (adj s) u v

/-- Neighbor-set symmetry (spec section 8, "Symmetry"). -/
def NbrSym (s : St) : Prop := ∀ a b : Nat, b ∈ s.nbr a ↔ a ∈ s.nbr b

/-- All neighbor references stay inside the node universe `V`. -/
def ClosedOn (s : St) (V : Finset Nat) : Prop := ∀ x : Nat, s.nbr x ⊆ V

/-- Component soundness (spec section 8): two nodes point at the same
component object iff a path connects them. -/
def Sound (s : St) (V : Finset Nat) : Prop :=
  ∀ a ∈ V, ∀ b ∈ V, (s.ccId a = s.ccId b ↔ Reaches s a b)

/-- Each node's component object holds exactly its reachable set. -/
def CCContents (s : St) (V : Finset Nat) : Prop :=
  ∀ a ∈ V, ∀ b : Nat, (b ∈ s.ccSet (s.ccId a) ↔ Reaches s a b)

/-- Every live component object predates the allocation counter. -/
def FreshBound (s : St) (V : Finset Nat) : Prop := ∀ a ∈ V, s.ccId a < s.fresh

/-- The section-3 data-model invariants over the node universe `V`. -/
def Invariant (s : St) (V : Finset Nat) : Prop :=
  NbrSym s ∧ ClosedOn s V ∧ Sound s V ∧ CCContents s V ∧ FreshBound s V

/-- Symmetry restricted to the keys known to the `Graph` wrapper. -/
def SymOn (g : Graph) : Prop :=
  ∀ a ∈ g.keys, ∀ b ∈ g.keys, (b ∈ g.st.nbr a ↔ a ∈ g.st.nbr b)

/-! ### Node construction

`Node.__init__` sets `self.neighbors = set()` and `self.cc = {self}`; the
fresh singleton is a newly allocated set object.  (The optional peers
argument then runs `Node.add_node`, modelled separately below.) -/

/-- Effect of `Node.__init__` for node `a` (without the optional peers). -/
def createNode (s : St) (a : Nat) : St :=
  { s with
      nbr := Function.update s.nbr a ∅
      ccId := Function.update s.ccId a s.fresh
      ccSet := Function.update s.ccSet s.fresh {a}
      fresh := s.fresh + 1 }

/-! ### BFS helpers

`Node.add_node` runs a breadth-first loop that marks `visited` when a
node is *popped* and appends every not-yet-visited neighbor (so the
queue may hold duplicates); the in-loop statement `node.cc = self.cc`
only rebinds pointers and never changes any neighbor set read by the
traversal, so the pointer assignment is applied after the traversal in
`Node.add_node` below.  `bfsPop` returns the final `visited` set, with
explicit fuel standing for the unbounded `while q:` loop. -/

/-- Deterministic ascending enumeration of a finite set, standing in for
Python's (unspecified) set iteration order; structural recursion on the
cardinality bound keeps it computable by the kernel. -/
def enumAux : Nat → Finset Nat → List Nat
  | 0, _ => []
  | n + 1, A =>
    if h : A.Nonempty then A.min' h :: enumAux n (A.erase (A.min' h)) else []

/-- The elements of `A`, ascending. -/
def enumList (A : Finset Nat) : List Nat := enumAux A.card A

/-- The `while q:` loop of `Node.add_node`: pop, mark visited, append
unvisited neighbors.  Returns the final visited set, `none` on fuel
exhaustion. -/
def bfsPop (s : St) : Nat → List Nat → Finset Nat → Option (Finset Nat)
  | 0, _, _ => none
  | _ + 1, [], vis => some vis
  | f + 1, x :: q, vis =>
    bfsPop s f
      (q ++ (enumList (s.nbr x)).filter (fun n => decide (n ∉ insert x vis)))
      (insert x vis)

/-- The `bfs` / `recompute_cc` helper loop of `Node.update` and
`Node.remove_node`: pop into `comp`, mark `visited_global` when a node
is *pushed*.  Returns `(comp, visited_global)`. -/
def bfsPush (s : St) : Nat → List Nat → Finset Nat → Finset Nat →
    Option (Finset Nat × Finset Nat)
  | 0, _, _, _ => none
  | _ + 1, [], comp, vis => some (comp, vis)
  | f + 1, x :: q, comp, vis =>
    let app := (enumList (s.nbr x)).filter (fun n => decide (n ∉ vis))
    bfsPush s f (q ++ app) (insert x comp) (vis ∪ app.toFinset)

/-! ### `Node.add_node` -/

/-- One iteration of the first loop of `Node.add_node`:
`self.neighbors.add(n); n.neighbors.add(self); self.cc |= n.cc`.
The `|=` mutates the set object `self.cc` points at, in place. -/
def addPeer (s : St) (a n : Nat) : St :=
  let nbr1 := Function.update s.nbr a (insert n (s.nbr a))
  let nbr2 := Function.update nbr1 n (insert a (nbr1 n))
  { s with
      nbr := nbr2
      ccSet := Function.update s.ccSet (s.ccId a)
        (s.ccSet (s.ccId a) ∪ s.ccSet (s.ccId n)) }

/-- The first loop of `Node.add_node` over the peers (given in some
iteration order of the Python set). -/
def addEdges (s : St) (a : Nat) (peers : List Nat) : St :=
  peers.foldl (fun t n => addPeer t a n) s

/-- `Node.add_node(self, neighbors)`: add the symmetric edges and merge
`self.cc`, then traverse from `self` and point every visited node at the
set object `self.cc` (identity `ccId a`, unchanged by the edge loop). -/
def Node.add_node (fuel : Nat) (s : St) (a : Nat) (peers : List Nat) : Option St :=
  match bfsPop (addEdges s a peers) fuel [a] {a} with
  | none => none
  | some vis =>
    some { addEdges s a peers with
             ccId := fun n =>
               if n ∈ vis then (addEdges s a peers).ccId a
               else (addEdges s a peers).ccId n }

/-! ### `Node.update` -/

/-- `nbr.neighbors.discard(self)` for one removed neighbor `r`. -/
def dropEdgeTo (t : St) (a r : Nat) : St :=
  { t with nbr := Function.update t.nbr r ((t.nbr r).erase a) }

/-- `nbr.neighbors.add(self)` for one added neighbor `d`. -/
def addEdgeTo (t : St) (a d : Nat) : St :=
  { t with nbr := Function.update t.nbr d (insert a (t.nbr d)) }

/-- The edge-rewiring part of `Node.update`: drop the back edges of
`removed = old - new`, add the back edges of `added = new - old`, then
`self.neighbors = neighbors`.  The Python loops iterate sets; a fixed
(sorted) order is taken, and shown immaterial below. -/
def rewire (s : St) (a : Nat) (ns : Finset Nat) : St :=
  let removed := s.nbr a \ ns
  let added := ns \ s.nbr a
  let s1 := (enumList removed).foldl (fun t r => dropEdgeTo t a r) s
  let s2 := (enumList added).foldl (fun t d => addEdgeTo t a d) s1
  { s2 with nbr := Function.update s2.nbr a ns }

/-- The same rewiring with additions applied before removals (the other
order named by the update-equivalence property). -/
def rewireAddFirst (s : St) (a : Nat) (ns : Finset Nat) : St :=
  let removed := s.nbr a \ ns
  let added := ns \ s.nbr a
  let s1 := (enumList added).foldl (fun t d => addEdgeTo t a d) s
  let s2 := (enumList removed).foldl (fun t r => dropEdgeTo t a r) s1
  { s2 with nbr := Function.update s2.nbr a ns }

/-- `for node in comp: node.cc = comp` with `comp` a newly built set
object: allocate a fresh identity holding `comp` and point every member
at it. -/
def assignFresh (t : St) (comp : Finset Nat) : St :=
  { t with
      ccId := fun n => if n ∈ comp then t.fresh else t.ccId n
      ccSet := Function.update t.ccSet t.fresh comp
      fresh := t.fresh + 1 }

/-- The trailing loop of `Node.update`: for each removed neighbor not in
`visited_global`, recompute its region with a fresh component object,
sharing `visited_global` across the traversals. -/
def recompute (fuel : Nat) : List Nat → Finset Nat → St → Option St
  | [], _, t => some t
  | r :: rest, vg, t =>
    if r ∈ vg then recompute fuel rest vg t
    else
      match bfsPush t fuel [r] ∅ (insert r vg) with
      | none => none
      | some (comp, vg2) => recompute fuel rest vg2 (assignFresh t comp)

/-- `Node.update(self, neighbors)`: rewire the edges, recompute `self`'s
component into a fresh set object, then recompute the region of every
removed neighbor missed by that traversal.  (`self.time` is diagnostic
wall-clock data and is not modelled.) -/
def Node.update (fuel : Nat) (s : St) (a : Nat) (ns : Finset Nat) : Option St :=
  match bfsPush (rewire s a ns) fuel [a] ∅ (insert a ∅) with
  | none => none
  | some (comp, vg) =>
    recompute fuel (enumList (s.nbr a \ ns)) vg
      (assignFresh (rewire s a ns) comp)

/-! ### `Node.remove_node`

The source defines `recompute_cc(start, visited_global)` but the loop
calls `recompute_cc(nbr)` with a single argument, so the first loop
iteration raises `TypeError`; since `visited_global` is empty at that
point, the guard `nbr not in visited_global` passes whenever the node
had at least one neighbor.  Before that point the code has already
dropped the symmetric edges, emptied `self.neighbors`, and rebound
`self.cc` to a newly allocated *empty* set object.  The model returns
the mutated state together with the raised error, if any. -/

/-- The message of the arity error raised by `remove_node`. -/
def typeErrorMsg : String :=
  "TypeError: recompute_cc() missing 1 required positional argument: visited_global"

/-- `Node.remove_node(self)`. -/
def Node.remove_node (s : St) (a : Nat) : St × Option String :=
  let nbrs := s.nbr a
  let nbr1 := fun x =>
    if x = a then (∅ : Finset Nat)
    else if x ∈ nbrs then (s.nbr x).erase a else s.nbr x
  let s1 : St :=
    { s with
        nbr := nbr1
        ccId := Function.update s.ccId a s.fresh
        ccSet := Function.update s.ccSet s.fresh ∅
        fresh := s.fresh + 1 }
  if nbrs = ∅ then (s1, none) else (s1, some typeErrorMsg)

/-! ### `Graph` wrapper operations -/

/-- `Graph.add_node(key)`: create the node only when the key is absent;
return the (possibly preexisting) node of that key. -/
def Graph.add_node (g : Graph) (k : Nat) : Graph × Nat :=
  if k ∈ g.keys then (g, k)
  else ({ keys := insert k g.keys, st := createNode g.st k }, k)

/-- `Graph.remove_node(key)`: drop `u` from the neighbor sets of `u`'s
neighbors and delete the dictionary entry; `u`'s own neighbor set and
every `cc` field are left untouched. -/
def Graph.remove_node (g : Graph) (k : Nat) : Graph :=
  if k ∈ g.keys then
    { keys := g.keys.erase k
      st := { g.st with
                nbr := fun x =>
                  if x ∈ g.st.nbr k then (g.st.nbr x).erase k else g.st.nbr x } }
  else g

/-- `Graph.add_edge(u, v)`: materialize both endpoints, then insert the
two directed entries.  No `cc` field is read or written. -/
def Graph.add_edge (g : Graph) (u v : Nat) : Graph :=
  let g1 := (Graph.add_node g u).1
  let g2 := (Graph.add_node g1 v).1
  let st3 := { g2.st with nbr := Function.update g2.st.nbr u (insert v (g2.st.nbr u)) }
  let st4 := { st3 with nbr := Function.update st3.nbr v (insert u (st3.nbr v)) }
  { g2 with st := st4 }

/-- `Graph.remove_edge(u, v)`: discard both directed entries when both
keys exist, reporting whether anything was attempted. -/
def Graph.remove_edge (g : Graph) (u v : Nat) : Graph × Bool :=
  if u ∈ g.keys ∧ v ∈ g.keys then
    let st1 := { g.st with nbr := Function.update g.st.nbr u ((g.st.nbr u).erase v) }
    let st2 := { st1 with nbr := Function.update st1.nbr v ((st1.nbr v).erase u) }
    ({ g with st := st2 }, true)
  else (g, false)

/-- The attribute access `n.key` inside `Graph.neighbors`: `Node` stores
its address in the field `MAC` and defines no `key` attribute, so the
lookup raises `AttributeError` for every node object `n`. -/
def keyAttrErrorMsg : String := "AttributeError: Node object has no attribute key"

/-- Attribute access `n.key` on a node object. -/
def keyAttr (_ : Nat) : Except String Nat := Except.error keyAttrErrorMsg

/-- `Graph.neighbors(key)`: `[n.key for n in self.nodes[key].neighbors]`.
The dictionary lookup raises `KeyError` on an absent key; otherwise each
element forces the failing `n.key` access (an empty neighbor set yields
`[]` without ever evaluating it). -/
def keyErrorMsg : String := "KeyError"

/-- `Graph.neighbors(key)`. -/
def Graph.neighbors (g : Graph) (k : Nat) : Except String (List Nat) :=
  if k ∈ g.keys then (enumList (g.st.nbr k)).mapM keyAttr
  else Except.error keyErrorMsg

/-! ### Concrete states used as explicit inputs -/

/-- The blank world: no node created yet, allocator at zero. -/
def st0 : St :=
  { nbr := fun _ => ∅, ccId := fun n => n, ccSet := fun i => {i}, fresh := 0 }

/-- Two freshly created, still isolated nodes `0` and `1`. -/
def st2 : St := createNode (createNode st0 0) 1

/-- The path graph `0 - 1 - 2` with one shared component object. -/
def pathSt : St :=
  { nbr := fun n =>
      if n = 0 then {1} else if n = 1 then ({0, 2} : Finset Nat)
      else if n = 2 then {1} else ∅
    ccId := fun _ => 0
    ccSet := fun i => if i = 0 then ({0, 1, 2} : Finset Nat) else ∅
    fresh := 1 }

/-- Two connected nodes `0 - 1` with one shared component object. -/
def twoSt : St :=
  { nbr := fun n => if n = 0 then {1} else if n = 1 then {0} else ∅
    ccId := fun _ => 0
    ccSet := fun i => if i = 0 then ({0, 1} : Finset Nat) else ∅
    fresh := 1 }

/-- The empty wrapper graph. -/
def g0 : Graph := { keys := ∅, st := st0 }

/-- A wrapper graph holding the single isolated node `7`. -/
def g1 : Graph := (Graph.add_node g0 7).1

/-- Position of the first not-yet-visited entry of the queue (queue
length when every entry is visited); the loop measure's second
component. -/
def FP (vis : Finset Nat) : List Nat → Nat
  | [] => 0
  | x :: q => if x ∈ vis then FP vis q + 1 else 0

/-- Keys-restricted closure: every known node's neighbors are known. -/
def KeysClosed (g : Graph) : Prop := ∀ x ∈ g.keys, g.st.nbr x ⊆ g.keys

/-- Wrapper-level allocator soundness. -/
def KeysFresh (g : Graph) : Prop := ∀ k ∈ g.keys, g.st.ccId k < g.st.fresh


/-! ### Reachability toolkit -/

theorem reaches_refl (s : St) (a : Nat) : Reaches s a a := Relation.ReflTransGen.refl

theorem reaches_single {s : St} {a b : Nat} (h : b ∈ s.nbr a) : Reaches s a b :=
  Relation.ReflTransGen.single h

theorem reaches_trans {s : St} {a b c : Nat} (h1 : Reaches s a b)
    (h2 : Reaches s b c) : Reaches s a c :=
  Relation.ReflTransGen.trans h1 h2

theorem reaches_of_nbr_le {s t : St} (h : ∀ x, s.nbr x ⊆ t.nbr x) {a b : Nat}
    (hr : Reaches s a b) : Reaches t a b := by
  induction hr with
  | refl => exact Relation.ReflTransGen.refl
  | tail _ hstep ih => exact Relation.ReflTransGen.tail ih (h _ hstep)

theorem reaches_congr {s t : St} (h : ∀ x, s.nbr x = t.nbr x) {a b : Nat} :
    Reaches s a b ↔ Reaches t a b :=
  ⟨reaches_of_nbr_le fun x => (h x).le, reaches_of_nbr_le fun x => (h x).ge⟩

theorem reaches_symm {s : St} (hs : NbrSym s) {a b : Nat}
    (h : Reaches s a b) : Reaches s b a := by
  induction h with
  | refl => exact Relation.ReflTransGen.refl
  | tail _ hstep ih => exact Relation.ReflTransGen.head ((hs _ _).mp hstep) ih

theorem reaches_no_edges {s : St} (h : ∀ x, s.nbr x = ∅) {a b : Nat} :
    Reaches s a b ↔ a = b := by
  constructor
  · intro hr
    induction hr with
    | refl => rfl
    | tail _ hstep _ => simp [adj, h] at hstep
  · rintro rfl; exact Relation.ReflTransGen.refl

theorem reaches_mem_closed {s : St} {V : Finset Nat} (hc : ClosedOn s V)
    {a b : Nat} (ha : a ∈ V) (h : Reaches s a b) : b ∈ V := by
  induction h with
  | refl => exact ha
  | tail _ hstep ih => exact hc _ hstep


theorem enumAux_spec : ∀ (n : Nat) (A : Finset Nat), A.card ≤ n →
    (∀ x, x ∈ enumAux n A ↔ x ∈ A) ∧ (enumAux n A).Nodup := by
  intro n
  induction n with
  | zero =>
    intro A hA
    have : A = ∅ := Finset.card_eq_zero.mp (Nat.le_zero.mp hA)
    subst this
    exact ⟨by simp [enumAux], by simp [enumAux]⟩
  | succ n ih =>
    intro A hA
    show (∀ x, x ∈ (if h : A.Nonempty then
        A.min' h :: enumAux n (A.erase (A.min' h)) else []) ↔ x ∈ A) ∧
      (if h : A.Nonempty then
        A.min' h :: enumAux n (A.erase (A.min' h)) else []).Nodup
    by_cases h : A.Nonempty
    · rw [dif_pos h]
      have hm : A.min' h ∈ A := A.min'_mem h
      have hcard : (A.erase (A.min' h)).card ≤ n := by
        rw [Finset.card_erase_of_mem hm]
        omega
      obtain ⟨ih1, ih2⟩ := ih (A.erase (A.min' h)) hcard
      constructor
      · intro x
        rw [List.mem_cons, ih1 x, Finset.mem_erase]
        constructor
        · rintro (rfl | ⟨_, hx⟩)
          · exact hm
          · exact hx
        · intro hx
          by_cases hxm : x = A.min' h
          · exact Or.inl hxm
          · exact Or.inr ⟨hxm, hx⟩
      · refine List.Nodup.cons ?_ ih2
        intro hc
        exact ((Finset.mem_erase.mp ((ih1 _).mp hc)).1) rfl
    · rw [dif_neg h]
      have : A = ∅ := Finset.not_nonempty_iff_eq_empty.mp h
      subst this
      exact ⟨by simp, by simp⟩

theorem mem_enumList {A : Finset Nat} {x : Nat} : x ∈ enumList A ↔ x ∈ A :=
  (enumAux_spec A.card A (le_refl _)).1 x

theorem enumList_nodup (A : Finset Nat) : (enumList A).Nodup :=
  (enumAux_spec A.card A (le_refl _)).2

/-! ### `addEdges` characterizations -/

theorem addPeer_ccId (s : St) (a n : Nat) : (addPeer s a n).ccId = s.ccId := rfl

theorem addPeer_fresh (s : St) (a n : Nat) : (addPeer s a n).fresh = s.fresh := rfl

theorem addPeer_nbr_mem (s : St) (a n x y : Nat) :
    y ∈ (addPeer s a n).nbr x ↔
      y ∈ s.nbr x ∨ (x = a ∧ y = n) ∨ (x = n ∧ y = a) := by
  unfold addPeer
  by_cases hxn : x = n
  · subst hxn
    by_cases hxa : x = a
    · subst hxa
      simp [Function.update_same]
      tauto
    · simp [Function.update_same, Function.update_noteq hxa]
      tauto
  · by_cases hxa : x = a
    · subst hxa
      simp [Function.update_noteq (Ne.symm hxn), Function.update_same, hxn]
      tauto
    · simp [Function.update_noteq hxn, Function.update_noteq hxa, hxn, hxa]

theorem addEdges_ccId (s : St) (a : Nat) (P : List Nat) :
    (addEdges s a P).ccId = s.ccId := by
  induction P generalizing s with
  | nil => rfl
  | cons n P ih => exact (ih (addPeer s a n)).trans rfl

theorem addEdges_fresh (s : St) (a : Nat) (P : List Nat) :
    (addEdges s a P).fresh = s.fresh := by
  induction P generalizing s with
  | nil => rfl
  | cons n P ih => exact (ih (addPeer s a n)).trans rfl

theorem addEdges_cons (s : St) (a n : Nat) (P : List Nat) :
    addEdges s a (n :: P) = addEdges (addPeer s a n) a P := rfl

theorem addEdges_nbr_mem (s : St) (a : Nat) (P : List Nat) (x y : Nat) :
    y ∈ (addEdges s a P).nbr x ↔
      y ∈ s.nbr x ∨ (x = a ∧ y ∈ P) ∨ (x ∈ P ∧ y = a) := by
  induction P generalizing s with
  | nil => simp [addEdges]
  | cons n P ih =>
    rw [addEdges_cons, ih, addPeer_nbr_mem]
    simp only [List.mem_cons]
    tauto

theorem addPeer_ccSet_mem (s : St) (a n j y : Nat) :
    y ∈ (addPeer s a n).ccSet j ↔
      y ∈ s.ccSet j ∨ (j = s.ccId a ∧ y ∈ s.ccSet (s.ccId n)) := by
  show y ∈ Function.update s.ccSet (s.ccId a)
      (s.ccSet (s.ccId a) ∪ s.ccSet (s.ccId n)) j ↔ _
  by_cases h : j = s.ccId a
  · subst h; simp [Function.update_same]
  · simp [Function.update_noteq h, h]

theorem addEdges_ccSet_mem (s : St) (a : Nat) (P : List Nat) (j y : Nat) :
    y ∈ (addEdges s a P).ccSet j ↔
      y ∈ s.ccSet j ∨ (j = s.ccId a ∧ ∃ n ∈ P, y ∈ s.ccSet (s.ccId n)) := by
  induction P generalizing s with
  | nil => simp [addEdges]
  | cons n P ih =>
    rw [addEdges_cons, ih]
    have hid : (addPeer s a n).ccId = s.ccId := rfl
    rw [hid]
    simp only [addPeer_ccSet_mem]
    constructor
    · rintro ((h1 | ⟨rfl, h2⟩) | ⟨rfl, m, hm, h1 | ⟨hma, h2⟩⟩)
      · exact Or.inl h1
      · exact Or.inr ⟨rfl, n, List.mem_cons_self n P, h2⟩
      · exact Or.inr ⟨rfl, m, List.mem_cons_of_mem n hm, h1⟩
      · exact Or.inr ⟨rfl, n, List.mem_cons_self n P, h2⟩
    · rintro (h1 | ⟨rfl, k, hk, h2⟩)
      · exact Or.inl (Or.inl h1)
      · rcases List.mem_cons.mp hk with rfl | hk'
        · exact Or.inl (Or.inr ⟨rfl, h2⟩)
        · exact Or.inr ⟨rfl, k, hk', Or.inl h2⟩

/-! ### `bfsPop` correctness and termination -/

theorem bfsPop_step (s : St) (f : Nat) (x : Nat) (q : List Nat) (vis : Finset Nat) :
    bfsPop s (f + 1) (x :: q) vis =
      bfsPop s f
        (q ++ (enumList (s.nbr x)).filter (fun n => decide (n ∉ insert x vis)))
        (insert x vis) := rfl

theorem mem_bfsApp {s : St} {x n : Nat} {A : Finset Nat} :
    n ∈ (enumList (s.nbr x)).filter (fun n => decide (n ∉ A)) ↔
      n ∈ s.nbr x ∧ n ∉ A := by
  rw [List.mem_filter, decide_eq_true_iff, mem_enumList]

theorem bfsPop_mono {s : St} :
    ∀ {f : Nat} {q : List Nat} {vis out : Finset Nat},
      bfsPop s f q vis = some out → ∀ {f2}, f ≤ f2 → bfsPop s f2 q vis = some out := by
  intro f
  induction f with
  | zero => intro q vis out h; simp [bfsPop] at h
  | succ f ih =>
    intro q vis out h f2 hle
    obtain ⟨f2, rfl⟩ := Nat.exists_eq_add_of_le hle
    match q with
    | [] =>
      rw [show f + 1 + f2 = (f + f2) + 1 by omega]
      exact h
    | x :: q =>
      rw [bfsPop_step] at h
      rw [show f + 1 + f2 = (f + f2) + 1 by omega, bfsPop_step]
      exact ih h (Nat.le_add_right _ _)

theorem bfsPop_vis_subset {s : St} :
    ∀ {f : Nat} {q : List Nat} {vis out : Finset Nat},
      bfsPop s f q vis = some out → vis ⊆ out := by
  intro f
  induction f with
  | zero => intro q vis out h; simp [bfsPop] at h
  | succ f ih =>
    intro q vis out h
    match q with
    | [] => cases h; exact Finset.Subset.refl _
    | x :: q =>
      rw [bfsPop_step] at h
      exact (Finset.subset_insert x vis).trans (ih h)

theorem bfsPop_q_subset {s : St} :
    ∀ {f : Nat} {q : List Nat} {vis out : Finset Nat},
      bfsPop s f q vis = some out → ∀ x ∈ q, x ∈ out := by
  intro f
  induction f with
  | zero => intro q vis out h; simp [bfsPop] at h
  | succ f ih =>
    intro q vis out h y hy
    match q with
    | [] => cases hy
    | x :: q =>
      rw [bfsPop_step] at h
      rcases List.mem_cons.mp hy with rfl | hy'
      · exact bfsPop_vis_subset h (Finset.mem_insert_self y vis)
      · exact ih h y (List.mem_append_left _ hy')

theorem bfsPop_closed {s : St} :
    ∀ {f : Nat} {q : List Nat} {vis out : Finset Nat},
      bfsPop s f q vis = some out →
      (∀ v ∈ vis, v ∈ q ∨ ∀ n ∈ s.nbr v, n ∈ vis ∨ n ∈ q) →
      ∀ v ∈ out, ∀ n ∈ s.nbr v, n ∈ out := by
  intro f
  induction f with
  | zero => intro q vis out h; simp [bfsPop] at h
  | succ f ih =>
    intro q vis out h hI
    match q with
    | [] =>
      cases h
      intro v hv n hn
      rcases hI v hv with h' | h'
      · cases h'
      · rcases h' n hn with h'' | h''
        · exact h''
        · cases h''
    | x :: q =>
      rw [bfsPop_step] at h
      refine ih h ?_
      intro v hv
      rcases Finset.mem_insert.mp hv with rfl | hv'
      · right
        intro n hn
        by_cases hnv : n ∈ insert v vis
        · exact Or.inl hnv
        · exact Or.inr (List.mem_append_right _ (mem_bfsApp.mpr ⟨hn, hnv⟩))
      · rcases hI v hv' with h' | h'
        · rcases List.mem_cons.mp h' with rfl | h''
          · right
            intro n hn
            by_cases hnv : n ∈ insert v vis
            · exact Or.inl hnv
            · exact Or.inr (List.mem_append_right _ (mem_bfsApp.mpr ⟨hn, hnv⟩))
          · exact Or.inl (List.mem_append_left _ h'')
        · right
          intro n hn
          rcases h' n hn with h'' | h''
          · exact Or.inl (Finset.mem_insert_of_mem h'')
          · rcases List.mem_cons.mp h'' with rfl | h3
            · exact Or.inl (Finset.mem_insert_self _ _)
            · exact Or.inr (List.mem_append_left _ h3)

theorem bfsPop_sound {s : St} {a : Nat} :
    ∀ {f : Nat} {q : List Nat} {vis out : Finset Nat},
      bfsPop s f q vis = some out →
      (∀ v ∈ vis, Reaches s a v) → (∀ v ∈ q, Reaches s a v) →
      ∀ v ∈ out, Reaches s a v := by
  intro f
  induction f with
  | zero => intro q vis out h; simp [bfsPop] at h
  | succ f ih =>
    intro q vis out h hvis hq
    match q with
    | [] => cases h; exact hvis
    | x :: q =>
      rw [bfsPop_step] at h
      have hx : Reaches s a x := hq x (List.mem_cons_self _ _)
      refine ih h ?_ ?_
      · intro v hv
        rcases Finset.mem_insert.mp hv with rfl | hv'
        · exact hx
        · exact hvis v hv'
      · intro v hv
        rcases List.mem_append.mp hv with hv' | hv'
        · exact hq v (List.mem_cons_of_mem _ hv')
        · exact Relation.ReflTransGen.tail hx (mem_bfsApp.mp hv').1

theorem bfsPop_spec {s : St} {a : Nat} {f : Nat} {out : Finset Nat}
    (h : bfsPop s f [a] {a} = some out) : ∀ x, x ∈ out ↔ Reaches s a x := by
  intro x
  constructor
  · intro hx
    refine bfsPop_sound h ?_ ?_ x hx
    · intro v hv
      rcases Finset.mem_singleton.mp hv with rfl
      exact reaches_refl s v
    · intro v hv
      rcases List.mem_singleton.mp hv with rfl
      exact reaches_refl s v
  · intro hx
    have hclosed : ∀ v ∈ out, ∀ n ∈ s.nbr v, n ∈ out := by
      refine bfsPop_closed h ?_
      intro v hv
      rcases Finset.mem_singleton.mp hv with rfl
      exact Or.inl (List.mem_singleton_self _)
    have ha : a ∈ out := bfsPop_q_subset h a (List.mem_singleton_self _)
    induction hx with
    | refl => exact ha
    | tail _ hstep ihr => exact hclosed _ ihr _ hstep

theorem FP_cons (vis : Finset Nat) (x : Nat) (q : List Nat) :
    FP vis (x :: q) = if x ∈ vis then FP vis q + 1 else 0 := rfl

theorem FP_append_le (vis : Finset Nat) (q r : List Nat) :
    FP vis (q ++ r) ≤ FP vis q + FP vis r := by
  induction q with
  | nil => simp [FP]
  | cons x q ih =>
    rw [List.cons_append, FP_cons, FP_cons]
    split_ifs
    · omega
    · omega

theorem FP_filtered (vis : Finset Nat) (l : List Nat)
    (h : ∀ x ∈ l, x ∉ vis) : FP vis l = 0 := by
  cases l with
  | nil => rfl
  | cons x q => simp [FP, h x (List.mem_cons_self _ _)]

theorem bfsPop_term_aux (s : St) (V : Finset Nat) (hc : ClosedOn s V) :
    ∀ u i q vis, (∀ x ∈ q, x ∈ V) → (V \ vis).card ≤ u → FP vis q ≤ i →
      ∃ f out, bfsPop s f q vis = some out := by
  intro u
  induction u using Nat.strong_induction_on with
  | _ u ihu =>
    intro i
    induction i with
    | zero =>
      intro q vis hq hu hfp
      match q with
      | [] => exact ⟨1, vis, rfl⟩
      | x :: q =>
        have hx : x ∉ vis := by
          intro hmem
          simp [FP, hmem] at hfp
        have hxV : x ∈ V := hq x (List.mem_cons_self _ _)
        have hlt : (V \ insert x vis).card < (V \ vis).card := by
          refine Finset.card_lt_card ?_
          constructor
          · intro y hy
            rcases Finset.mem_sdiff.mp hy with ⟨hy1, hy2⟩
            exact Finset.mem_sdiff.mpr ⟨hy1, fun hv => hy2 (Finset.mem_insert_of_mem hv)⟩
          · intro hsub
            have := hsub (Finset.mem_sdiff.mpr ⟨hxV, hx⟩)
            rcases Finset.mem_sdiff.mp this with ⟨_, h2⟩
            exact h2 (Finset.mem_insert_self _ _)
        have hq' : ∀ y ∈ q ++ (enumList (s.nbr x)).filter
            (fun n => decide (n ∉ insert x vis)), y ∈ V := by
          intro y hy
          rcases List.mem_append.mp hy with hy' | hy'
          · exact hq y (List.mem_cons_of_mem _ hy')
          · exact hc x (mem_bfsApp.mp hy').1
        obtain ⟨f, out, hf⟩ := ihu (V \ insert x vis).card (lt_of_lt_of_le hlt hu)
          (FP (insert x vis) (q ++ (enumList (s.nbr x)).filter
            (fun n => decide (n ∉ insert x vis))))
          _ _ hq' (le_refl _) (le_refl _)
        exact ⟨f + 1, out, by rw [bfsPop_step]; exact hf⟩
    | succ i ihi =>
      intro q vis hq hu hfp
      match q with
      | [] => exact ⟨1, vis, rfl⟩
      | x :: q =>
        by_cases hx : x ∈ vis
        · -- revisit of an already-visited node: the measure's second
          -- component strictly decreases
          have hins : insert x vis = vis := Finset.insert_eq_self.mpr hx
          have happ : ∀ y ∈ (enumList (s.nbr x)).filter
              (fun n => decide (n ∉ insert x vis)), y ∉ insert x vis := by
            intro y hy
            exact (mem_bfsApp.mp hy).2
          have hq' : ∀ y ∈ q ++ (enumList (s.nbr x)).filter
              (fun n => decide (n ∉ insert x vis)), y ∈ V := by
            intro y hy
            rcases List.mem_append.mp hy with hy' | hy'
            · exact hq y (List.mem_cons_of_mem _ hy')
            · exact hc x (mem_bfsApp.mp hy').1
          have hfp' : FP (insert x vis)
              (q ++ (enumList (s.nbr x)).filter
                (fun n => decide (n ∉ insert x vis))) ≤ i := by
            refine le_trans (FP_append_le _ _ _) ?_
            rw [FP_filtered _ _ happ, hins]
            have : FP vis (x :: q) = FP vis q + 1 := by simp [FP, hx]
            omega
          obtain ⟨f, out, hf⟩ := ihi _ _ hq' (by rw [hins]; exact hu) hfp'
          exact ⟨f + 1, out, by rw [bfsPop_step]; exact hf⟩
        · -- fresh pop: the unvisited count strictly decreases
          have hxV : x ∈ V := hq x (List.mem_cons_self _ _)
          have hlt : (V \ insert x vis).card < (V \ vis).card := by
            refine Finset.card_lt_card ?_
            constructor
            · intro y hy
              rcases Finset.mem_sdiff.mp hy with ⟨hy1, hy2⟩
              exact Finset.mem_sdiff.mpr ⟨hy1, fun hv => hy2 (Finset.mem_insert_of_mem hv)⟩
            · intro hsub
              have := hsub (Finset.mem_sdiff.mpr ⟨hxV, hx⟩)
              rcases Finset.mem_sdiff.mp this with ⟨_, h2⟩
              exact h2 (Finset.mem_insert_self _ _)
          have hq' : ∀ y ∈ q ++ (enumList (s.nbr x)).filter
              (fun n => decide (n ∉ insert x vis)), y ∈ V := by
            intro y hy
            rcases List.mem_append.mp hy with hy' | hy'
            · exact hq y (List.mem_cons_of_mem _ hy')
            · exact hc x (mem_bfsApp.mp hy').1
          obtain ⟨f, out, hf⟩ := ihu (V \ insert x vis).card (lt_of_lt_of_le hlt hu)
            (FP (insert x vis) (q ++ (enumList (s.nbr x)).filter
              (fun n => decide (n ∉ insert x vis))))
            _ _ hq' (le_refl _) (le_refl _)
          exact ⟨f + 1, out, by rw [bfsPop_step]; exact hf⟩

theorem bfsPop_terminates {s : St} {V : Finset Nat} (hc : ClosedOn s V)
    {q : List Nat} {vis : Finset Nat} (hq : ∀ x ∈ q, x ∈ V) :
    ∃ f out, bfsPop s f q vis = some out :=
  bfsPop_term_aux s V hc (V \ vis).card (FP vis q) q vis hq (le_refl _) (le_refl _)

/-! ### Reachability through `addEdges` -/

theorem addEdges_sym {s : St} (hs : NbrSym s) (a : Nat) (P : List Nat) :
    NbrSym (addEdges s a P) := by
  intro x y
  rw [addEdges_nbr_mem, addEdges_nbr_mem]
  constructor
  · rintro (h | ⟨rfl, h⟩ | ⟨h, rfl⟩)
    · exact Or.inl ((hs x y).mp h)
    · exact Or.inr (Or.inr ⟨h, rfl⟩)
    · exact Or.inr (Or.inl ⟨rfl, h⟩)
  · rintro (h | ⟨rfl, h⟩ | ⟨h, rfl⟩)
    · exact Or.inl ((hs y x).mp h)
    · exact Or.inr (Or.inr ⟨h, rfl⟩)
    · exact Or.inr (Or.inl ⟨rfl, h⟩)

theorem addEdges_closed {s : St} {V : Finset Nat} {a : Nat} {P : List Nat}
    (hc : ClosedOn s V) (ha : a ∈ V) (hP : ∀ p ∈ P, p ∈ V) :
    ClosedOn (addEdges s a P) V := by
  intro x y hy
  rcases (addEdges_nbr_mem s a P x y).mp hy with h | ⟨rfl, h⟩ | ⟨h, rfl⟩
  · exact hc x h
  · exact hP y h
  · exact ha

theorem addEdges_nbr_le (s : St) (a : Nat) (P : List Nat) (x : Nat) :
    s.nbr x ⊆ (addEdges s a P).nbr x := fun y hy =>
  (addEdges_nbr_mem s a P x y).mpr (Or.inl hy)

theorem reaches_addEdges_mono {s : St} {a : Nat} {P : List Nat} {x y : Nat}
    (h : Reaches s x y) : Reaches (addEdges s a P) x y :=
  reaches_of_nbr_le (addEdges_nbr_le s a P) h

theorem reaches_addEdges_start {s : St} {a : Nat} {P : List Nat} {y : Nat} :
    Reaches (addEdges s a P) a y ↔ Reaches s a y ∨ ∃ p ∈ P, Reaches s p y := by
  constructor
  · intro h
    induction h with
    | refl => exact Or.inl (reaches_refl s a)
    | tail _ hstep ih =>
      rcases (addEdges_nbr_mem s a P _ _).mp hstep with h' | ⟨rfl, h'⟩ | ⟨h', hend⟩
      · rcases ih with ih' | ⟨p, hp, ih'⟩
        · exact Or.inl (Relation.ReflTransGen.tail ih' h')
        · exact Or.inr ⟨p, hp, Relation.ReflTransGen.tail ih' h'⟩
      · exact Or.inr ⟨_, h', reaches_refl s _⟩
      · subst hend
        exact Or.inl (reaches_refl s _)
  · rintro (h | ⟨p, hp, h⟩)
    · exact reaches_addEdges_mono h
    · refine reaches_trans ?_ (reaches_addEdges_mono h)
      exact reaches_single ((addEdges_nbr_mem s a P a p).mpr (Or.inr (Or.inl ⟨rfl, hp⟩)))

theorem reaches_addEdges_untouched {s : St} {a : Nat} {P : List Nat} {x : Nat}
    (hx : ¬ Reaches (addEdges s a P) x a) (y : Nat) :
    Reaches (addEdges s a P) x y ↔ Reaches s x y := by
  constructor
  · intro h
    induction h with
    | refl => exact reaches_refl s x
    | tail _ hstep ih =>
      rcases (addEdges_nbr_mem s a P _ _).mp hstep with h' | ⟨rfl, h'⟩ | ⟨h', hend⟩
      · exact Relation.ReflTransGen.tail ih h'
      · exact absurd (reaches_addEdges_mono ih) hx
      · subst hend
        exact absurd
          (Relation.ReflTransGen.tail (reaches_addEdges_mono ih)
            ((addEdges_nbr_mem s _ P _ _).mpr (Or.inr (Or.inr ⟨h', rfl⟩)))) hx
  · exact reaches_addEdges_mono

/-! ### `Node.add_node`: shape, totality, invariant preservation -/

theorem bfsPop_congr {s t : St} (h : s.nbr = t.nbr) :
    ∀ (f : Nat) (q : List Nat) (vis : Finset Nat), bfsPop s f q vis = bfsPop t f q vis := by
  intro f
  induction f with
  | zero => intro q vis; rfl
  | succ f ih =>
    intro q vis
    match q with
    | [] => rfl
    | x :: q => rw [bfsPop_step, bfsPop_step, h, ih]

theorem add_node_elim {f : Nat} {s : St} {a : Nat} {P : List Nat} {out : St}
    (h : Node.add_node f s a P = some out) :
    ∃ vis, bfsPop (addEdges s a P) f [a] {a} = some vis ∧
      out = { addEdges s a P with
                ccId := fun n =>
                  if n ∈ vis then (addEdges s a P).ccId a
                  else (addEdges s a P).ccId n } := by
  unfold Node.add_node at h
  cases hb : bfsPop (addEdges s a P) f [a] {a} with
  | none => rw [hb] at h; cases h
  | some vis =>
    rw [hb] at h
    cases h
    exact ⟨vis, rfl, rfl⟩

theorem add_node_total {s : St} {V : Finset Nat} {a : Nat} {P : List Nat}
    (hc : ClosedOn s V) (ha : a ∈ V) (hP : ∀ p ∈ P, p ∈ V) :
    ∃ f out, Node.add_node f s a P = some out := by
  obtain ⟨f, vis, hf⟩ := @bfsPop_terminates (addEdges s a P) V
    (addEdges_closed hc ha hP) [a] {a}
    (by intro x hx; rw [List.mem_singleton.mp hx]; exact ha)
  refine ⟨f, { addEdges s a P with
                 ccId := fun n =>
                   if n ∈ vis then (addEdges s a P).ccId a
                   else (addEdges s a P).ccId n }, ?_⟩
  unfold Node.add_node
  rw [hf]

theorem add_node_main {s : St} {V : Finset Nat} {a : Nat} {P : List Nat}
    {f : Nat} {out : St}
    (hInv : Invariant s V) (ha : a ∈ V) (hP : ∀ p ∈ P, p ∈ V)
    (h : Node.add_node f s a P = some out) :
    Invariant out V ∧ out.nbr = (addEdges s a P).nbr := by
  obtain ⟨hsym, hcl, hsound, hcc, hfb⟩ := hInv
  obtain ⟨vis, hb, hout⟩ := add_node_elim h
  have hid : (addEdges s a P).ccId = s.ccId := addEdges_ccId s a P
  have hvis : ∀ x, x ∈ vis ↔ Reaches (addEdges s a P) a x := bfsPop_spec hb
  have hsym1 : NbrSym (addEdges s a P) := addEdges_sym hsym a P
  have hcl1 : ClosedOn (addEdges s a P) V := addEdges_closed hcl ha hP
  have hnbr : out.nbr = (addEdges s a P).nbr := by rw [hout]
  have hccSet : out.ccSet = (addEdges s a P).ccSet := by rw [hout]
  have hfresh : out.fresh = s.fresh := by rw [hout]; exact addEdges_fresh s a P
  have hccId : ∀ n, out.ccId n = if n ∈ vis then s.ccId a else s.ccId n := by
    intro n
    rw [hout]
    simp only [hid]
  have hRout : ∀ u v, Reaches out u v ↔ Reaches (addEdges s a P) u v := by
    intro u v
    exact reaches_congr (fun z => by rw [hnbr])
  have huntouched : ∀ x, x ∉ vis → ∀ y,
      (Reaches (addEdges s a P) x y ↔ Reaches s x y) := by
    intro x hx y
    exact reaches_addEdges_untouched
      (fun hxa => hx ((hvis x).mpr (reaches_symm hsym1 hxa))) y
  refine ⟨⟨?_, ?_, ?_, ?_, ?_⟩, hnbr⟩
  · -- symmetry
    intro x y
    rw [hnbr]
    exact hsym1 x y
  · -- closure
    intro x
    rw [hnbr]
    exact hcl1 x
  · -- soundness
    intro x hxV y hyV
    rw [hccId x, hccId y, hRout x y]
    by_cases hx : x ∈ vis
    · by_cases hy : y ∈ vis
      · rw [if_pos hx, if_pos hy]
        exact iff_of_true rfl
          (reaches_trans (reaches_symm hsym1 ((hvis x).mp hx)) ((hvis y).mp hy))
      · rw [if_pos hx, if_neg hy]
        refine iff_of_false ?_ ?_
        · intro h'
          exact hy ((hvis y).mpr
            (reaches_addEdges_mono ((hsound a ha y hyV).mp h')))
        · intro h'
          exact hy ((hvis y).mpr (reaches_trans ((hvis x).mp hx) h'))
    · by_cases hy : y ∈ vis
      · rw [if_neg hx, if_pos hy]
        refine iff_of_false ?_ ?_
        · intro h'
          exact hx ((hvis x).mpr
            (reaches_symm hsym1 (reaches_addEdges_mono ((hsound x hxV a ha).mp h'))))
        · intro h'
          exact hx ((hvis x).mpr
            (reaches_symm hsym1
              (reaches_trans h' (reaches_symm hsym1 ((hvis y).mp hy)))))
      · rw [if_neg hx, if_neg hy, huntouched x hx y]
        exact hsound x hxV y hyV
  · -- component contents
    intro x hxV y
    rw [hccId x, hccSet, hRout x y]
    by_cases hx : x ∈ vis
    · rw [if_pos hx, addEdges_ccSet_mem]
      have hstep : Reaches (addEdges s a P) x y ↔ Reaches (addEdges s a P) a y := by
        constructor
        · intro h'
          exact reaches_trans ((hvis x).mp hx) h'
        · intro h'
          exact reaches_trans (reaches_symm hsym1 ((hvis x).mp hx)) h'
      rw [hstep, reaches_addEdges_start]
      constructor
      · rintro (h' | ⟨_, n, hn, h'⟩)
        · exact Or.inl ((hcc a ha y).mp h')
        · exact Or.inr ⟨n, hn, (hcc n (hP n hn) y).mp h'⟩
      · rintro (h' | ⟨n, hn, h'⟩)
        · exact Or.inl ((hcc a ha y).mpr h')
        · exact Or.inr ⟨rfl, n, hn, (hcc n (hP n hn) y).mpr h'⟩
    · rw [if_neg hx, addEdges_ccSet_mem, huntouched x hx y]
      constructor
      · rintro (h' | ⟨heq, _⟩)
        · exact (hcc x hxV y).mp h'
        · exact absurd ((hvis x).mpr
            (reaches_symm hsym1
              (reaches_addEdges_mono ((hsound x hxV a ha).mp heq)))) hx
      · intro h'
        exact Or.inl ((hcc x hxV y).mpr h')
  · -- freshness bound
    intro x hxV
    rw [hccId x, hfresh]
    by_cases hx : x ∈ vis
    · rw [if_pos hx]; exact hfb a ha
    · rw [if_neg hx]; exact hfb x hxV

theorem St.ext' {s t : St} (h1 : s.nbr = t.nbr) (h2 : s.ccId = t.ccId)
    (h3 : s.ccSet = t.ccSet) (h4 : s.fresh = t.fresh) : s = t := by
  cases s
  cases t
  congr 1

theorem add_node_idem {s : St} {V : Finset Nat} {a b : Nat} {f1 : Nat} {s1 : St}
    (hInv : Invariant s V) (ha : a ∈ V) (hb : b ∈ V)
    (h1 : Node.add_node f1 s a [b] = some s1) :
    (∃ f2 s2, Node.add_node f2 s1 a [b] = some s2) ∧
    ∀ f2 s2, Node.add_node f2 s1 a [b] = some s2 → s2 = s1 := by
  have hbP : ∀ p ∈ [b], p ∈ V := by
    intro p hp
    rw [List.mem_singleton.mp hp]
    exact hb
  obtain ⟨hInv1, _⟩ := add_node_main hInv ha hbP h1
  constructor
  · exact add_node_total hInv1.2.1 ha hbP
  · intro f2 s2 h2
    obtain ⟨vis1, hb1, hout1⟩ := add_node_elim h1
    obtain ⟨vis2, hb2, hout2⟩ := add_node_elim h2
    have hvis1 : ∀ x, x ∈ vis1 ↔ Reaches (addEdges s a [b]) a x := bfsPop_spec hb1
    have hvis2 : ∀ x, x ∈ vis2 ↔ Reaches (addEdges s1 a [b]) a x := bfsPop_spec hb2
    have hs1nbr : s1.nbr = (addEdges s a [b]).nbr := by rw [hout1]
    have hs1ccId : ∀ n, s1.ccId n = if n ∈ vis1 then s.ccId a else s.ccId n := by
      intro n
      rw [hout1]
      simp only [addEdges_ccId]
    have hs1ccSet : s1.ccSet = (addEdges s a [b]).ccSet := by rw [hout1]
    have ha_vis1 : a ∈ vis1 := (hvis1 a).mpr (reaches_refl _ a)
    have hb_vis1 : b ∈ vis1 := by
      refine (hvis1 b).mpr (reaches_single ?_)
      exact (addEdges_nbr_mem s a [b] a b).mpr
        (Or.inr (Or.inl ⟨rfl, List.mem_singleton_self b⟩))
    have hccid_b : s1.ccId b = s1.ccId a := by
      rw [hs1ccId b, hs1ccId a, if_pos hb_vis1, if_pos ha_vis1]
    have hnbr_idem : ∀ x, (addEdges s1 a [b]).nbr x = s1.nbr x := by
      intro x
      ext y
      rw [addEdges_nbr_mem]
      constructor
      · rintro (h' | ⟨hxa, h'⟩ | ⟨h', hya⟩)
        · exact h'
        · rw [hxa, List.mem_singleton.mp h', hs1nbr]
          exact (addEdges_nbr_mem s a [b] a b).mpr
            (Or.inr (Or.inl ⟨rfl, List.mem_singleton_self b⟩))
        · rw [hya, List.mem_singleton.mp h', hs1nbr]
          exact (addEdges_nbr_mem s a [b] b a).mpr
            (Or.inr (Or.inr ⟨List.mem_singleton_self b, rfl⟩))
      · exact fun h' => Or.inl h'
    have hvis_eq : vis2 = vis1 := by
      ext x
      rw [hvis1 x, hvis2 x, reaches_congr hnbr_idem,
        reaches_congr (fun z => congrFun hs1nbr z)]
    rw [hout2]
    refine St.ext' ?_ ?_ ?_ ?_
    · funext x
      exact hnbr_idem x
    · funext n
      show (if n ∈ vis2 then (addEdges s1 a [b]).ccId a
        else (addEdges s1 a [b]).ccId n) = s1.ccId n
      rw [addEdges_ccId, hvis_eq]
      by_cases hn : n ∈ vis1
      · rw [if_pos hn, hs1ccId n, hs1ccId a, if_pos hn, if_pos ha_vis1]
      · rw [if_neg hn]
    · show (addPeer s1 a b).ccSet = s1.ccSet
      show Function.update s1.ccSet (s1.ccId a)
        (s1.ccSet (s1.ccId a) ∪ s1.ccSet (s1.ccId b)) = s1.ccSet
      rw [hccid_b, Finset.union_self, Function.update_eq_self]
    · exact addEdges_fresh s1 a [b]

/-! ### `bfsPush` correctness and termination -/

theorem bfsPush_step (s : St) (f : Nat) (x : Nat) (q : List Nat)
    (comp vis : Finset Nat) :
    bfsPush s (f + 1) (x :: q) comp vis =
      bfsPush s f
        (q ++ (enumList (s.nbr x)).filter (fun n => decide (n ∉ vis)))
        (insert x comp)
        (vis ∪ ((enumList (s.nbr x)).filter (fun n => decide (n ∉ vis))).toFinset) :=
  rfl

theorem mem_bfsPushApp {s : St} {x n : Nat} {vis : Finset Nat} :
    n ∈ (enumList (s.nbr x)).filter (fun n => decide (n ∉ vis)) ↔
      n ∈ s.nbr x ∧ n ∉ vis := by
  rw [List.mem_filter, decide_eq_true_iff, mem_enumList]

theorem bfsPush_mono {s : St} :
    ∀ {f : Nat} {q : List Nat} {comp vis : Finset Nat} {out},
      bfsPush s f q comp vis = some out →
      ∀ {f2}, f ≤ f2 → bfsPush s f2 q comp vis = some out := by
  intro f
  induction f with
  | zero => intro q comp vis out h; simp [bfsPush] at h
  | succ f ih =>
    intro q comp vis out h f2 hle
    obtain ⟨f2, rfl⟩ := Nat.exists_eq_add_of_le hle
    match q with
    | [] =>
      rw [show f + 1 + f2 = (f + f2) + 1 by omega]
      exact h
    | x :: q =>
      rw [bfsPush_step] at h
      rw [show f + 1 + f2 = (f + f2) + 1 by omega, bfsPush_step]
      exact ih h (Nat.le_add_right _ _)

theorem bfsPush_le {s : St} :
    ∀ {f : Nat} {q : List Nat} {comp vis : Finset Nat} {out},
      bfsPush s f q comp vis = some out →
      comp ⊆ out.1 ∧ vis ⊆ out.2 ∧ ∀ x ∈ q, x ∈ out.1 := by
  intro f
  induction f with
  | zero => intro q comp vis out h; simp [bfsPush] at h
  | succ f ih =>
    intro q comp vis out h
    match q with
    | [] =>
      cases h
      exact ⟨Finset.Subset.refl _, Finset.Subset.refl _, by intro x hx; cases hx⟩
    | x :: q =>
      rw [bfsPush_step] at h
      obtain ⟨h1, h2, h3⟩ := ih h
      refine ⟨(Finset.subset_insert x comp).trans h1,
        (Finset.subset_union_left).trans h2, ?_⟩
      intro y hy
      rcases List.mem_cons.mp hy with rfl | hy'
      · exact h1 (Finset.mem_insert_self y comp)
      · exact h3 y (List.mem_append_left _ hy')

theorem bfsPush_vis_eq {s : St} :
    ∀ {f : Nat} {q : List Nat} {comp vis : Finset Nat} {out},
      bfsPush s f q comp vis = some out →
      (∀ x ∈ q, x ∈ vis) → comp ⊆ vis →
      out.2 = vis ∪ out.1 ∧ out.1 ⊆ vis ∪ out.1 := by
  intro f
  induction f with
  | zero => intro q comp vis out h; simp [bfsPush] at h
  | succ f ih =>
    intro q comp vis out h hq hcv
    match q with
    | [] =>
      cases h
      constructor
      · have : comp ⊆ vis := hcv
        rw [Finset.union_eq_left.mpr this]
      · exact Finset.subset_union_right
    | x :: q =>
      rw [bfsPush_step] at h
      have hq' : ∀ y ∈ q ++ (enumList (s.nbr x)).filter
          (fun n => decide (n ∉ vis)), y ∈ vis ∪
            ((enumList (s.nbr x)).filter (fun n => decide (n ∉ vis))).toFinset := by
        intro y hy
        rcases List.mem_append.mp hy with hy' | hy'
        · exact Finset.mem_union_left _ (hq y (List.mem_cons_of_mem _ hy'))
        · exact Finset.mem_union_right _ (List.mem_toFinset.mpr hy')
      have hcv' : insert x comp ⊆ vis ∪
          ((enumList (s.nbr x)).filter (fun n => decide (n ∉ vis))).toFinset := by
        intro y hy
        rcases Finset.mem_insert.mp hy with rfl | hy'
        · exact Finset.mem_union_left _ (hq y (List.mem_cons_self _ _))
        · exact Finset.mem_union_left _ (hcv hy')
      obtain ⟨h1, _⟩ := ih h hq' hcv'
      have happ_sub : ∀ y ∈ (enumList (s.nbr x)).filter
          (fun n => decide (n ∉ vis)), y ∈ out.1 := by
        intro y hy
        exact (bfsPush_le h).2.2 y (List.mem_append_right _ hy)
      constructor
      · rw [h1]
        ext y
        simp only [Finset.mem_union, List.mem_toFinset]
        constructor
        · rintro ((hy | hy) | hy)
          · exact Or.inl hy
          · exact Or.inr (happ_sub y hy)
          · exact Or.inr hy
        · rintro (hy | hy)
          · exact Or.inl (Or.inl hy)
          · exact Or.inr hy
      · exact Finset.subset_union_right

theorem bfsPush_closed {s : St} :
    ∀ {f : Nat} {q : List Nat} {comp vis : Finset Nat} {out},
      bfsPush s f q comp vis = some out →
      (∀ v ∈ comp, ∀ n ∈ s.nbr v, n ∈ vis) →
      ∀ v ∈ out.1, ∀ n ∈ s.nbr v, n ∈ out.2 := by
  intro f
  induction f with
  | zero => intro q comp vis out h; simp [bfsPush] at h
  | succ f ih =>
    intro q comp vis out h hI
    match q with
    | [] =>
      cases h
      exact hI
    | x :: q =>
      rw [bfsPush_step] at h
      refine ih h ?_
      intro v hv n hn
      rcases Finset.mem_insert.mp hv with rfl | hv'
      · by_cases hnv : n ∈ vis
        · exact Finset.mem_union_left _ hnv
        · exact Finset.mem_union_right _
            (List.mem_toFinset.mpr (mem_bfsPushApp.mpr ⟨hn, hnv⟩))
      · exact Finset.mem_union_left _ (hI v hv' n hn)

theorem bfsPush_sound {s : St} {r : Nat} :
    ∀ {f : Nat} {q : List Nat} {comp vis : Finset Nat} {out},
      bfsPush s f q comp vis = some out →
      (∀ v ∈ q, Reaches s r v) → (∀ v ∈ comp, Reaches s r v) →
      ∀ v ∈ out.1, Reaches s r v := by
  intro f
  induction f with
  | zero => intro q comp vis out h; simp [bfsPush] at h
  | succ f ih =>
    intro q comp vis out h hq hcomp
    match q with
    | [] =>
      cases h
      exact hcomp
    | x :: q =>
      rw [bfsPush_step] at h
      have hx : Reaches s r x := hq x (List.mem_cons_self _ _)
      refine ih h ?_ ?_
      · intro v hv
        rcases List.mem_append.mp hv with hv' | hv'
        · exact hq v (List.mem_cons_of_mem _ hv')
        · exact Relation.ReflTransGen.tail hx (mem_bfsPushApp.mp hv').1
      · intro v hv
        rcases Finset.mem_insert.mp hv with rfl | hv'
        · exact hx
        · exact hcomp v hv'

theorem bfsPush_spec {s : St} {r : Nat} {vg : Finset Nat} {f : Nat}
    {comp vg2 : Finset Nat}
    (h : bfsPush s f [r] ∅ (insert r vg) = some (comp, vg2))
    (hdisj : ∀ y, Reaches s r y → y ∉ vg) :
    (∀ x, x ∈ comp ↔ Reaches s r x) ∧ vg2 = vg ∪ comp := by
  have hr : r ∈ comp := (bfsPush_le h).2.2 r (List.mem_singleton_self r)
  have hvis : vg2 = insert r vg ∪ comp := by
    have := bfsPush_vis_eq h ?_ ?_
    · exact this.1
    · intro x hx
      rw [List.mem_singleton.mp hx]
      exact Finset.mem_insert_self r vg
    · intro x hx
      cases Finset.not_mem_empty x hx
  have hclosed : ∀ v ∈ comp, ∀ n ∈ s.nbr v, n ∈ vg2 := by
    refine bfsPush_closed h ?_
    intro v hv
    cases Finset.not_mem_empty v hv
  have hsound : ∀ v ∈ comp, Reaches s r v := by
    refine bfsPush_sound h ?_ ?_
    · intro v hv
      rw [List.mem_singleton.mp hv]
      exact reaches_refl s r
    · intro v hv
      cases Finset.not_mem_empty v hv
  constructor
  · intro x
    constructor
    · exact hsound x
    · intro hx
      induction hx with
      | refl => exact hr
      | tail hpre hstep ihr =>
        have hn := hclosed _ ihr _ hstep
        rw [hvis] at hn
        rcases Finset.mem_union.mp hn with hn' | hn'
        · rcases Finset.mem_insert.mp hn' with rfl | hn''
          · exact hr
          · exact absurd hn''
              (hdisj _ (Relation.ReflTransGen.tail hpre hstep))
        · exact hn'
  · rw [hvis]
    ext y
    simp only [Finset.mem_union, Finset.mem_insert]
    constructor
    · rintro ((rfl | hy) | hy)
      · exact Or.inr hr
      · exact Or.inl hy
      · exact Or.inr hy
    · rintro (hy | hy)
      · exact Or.inl (Or.inr hy)
      · exact Or.inr hy

theorem bfsPush_term_aux (s : St) (V : Finset Nat) (hc : ClosedOn s V) :
    ∀ m (q : List Nat) (comp vis : Finset Nat), (∀ x ∈ q, x ∈ V) →
      q.length + (V \ vis).card ≤ m →
      ∃ f out, bfsPush s f q comp vis = some out := by
  intro m
  induction m with
  | zero =>
    intro q comp vis hq hm
    have : q.length = 0 := by omega
    rw [List.length_eq_zero.mp this]
    exact ⟨1, (comp, vis), rfl⟩
  | succ m ih =>
    intro q comp vis hq hm
    match q with
    | [] => exact ⟨1, (comp, vis), rfl⟩
    | x :: q =>
      have happ_nodup : ((enumList (s.nbr x)).filter
          (fun n => decide (n ∉ vis))).Nodup :=
        (enumList_nodup _).filter _
      have happ_card : ((enumList (s.nbr x)).filter
          (fun n => decide (n ∉ vis))).toFinset.card =
          ((enumList (s.nbr x)).filter (fun n => decide (n ∉ vis))).length :=
        List.toFinset_card_of_nodup happ_nodup
      have happ_sub : ((enumList (s.nbr x)).filter
          (fun n => decide (n ∉ vis))).toFinset ⊆ V \ vis := by
        intro y hy
        have := mem_bfsPushApp.mp (List.mem_toFinset.mp hy)
        exact Finset.mem_sdiff.mpr ⟨hc x this.1, this.2⟩
      have hsd : V \ (vis ∪ ((enumList (s.nbr x)).filter
          (fun n => decide (n ∉ vis))).toFinset) =
          (V \ vis) \ ((enumList (s.nbr x)).filter
            (fun n => decide (n ∉ vis))).toFinset := by
        ext y
        simp only [Finset.mem_sdiff, Finset.mem_union]
        tauto
      have hcard : (V \ (vis ∪ ((enumList (s.nbr x)).filter
          (fun n => decide (n ∉ vis))).toFinset)).card =
          (V \ vis).card - ((enumList (s.nbr x)).filter
            (fun n => decide (n ∉ vis))).toFinset.card := by
        rw [hsd]
        exact Finset.card_sdiff happ_sub
      have happ_le : ((enumList (s.nbr x)).filter
          (fun n => decide (n ∉ vis))).toFinset.card ≤ (V \ vis).card :=
        Finset.card_le_card happ_sub
      have hq' : ∀ y ∈ q ++ (enumList (s.nbr x)).filter
          (fun n => decide (n ∉ vis)), y ∈ V := by
        intro y hy
        rcases List.mem_append.mp hy with hy' | hy'
        · exact hq y (List.mem_cons_of_mem _ hy')
        · exact hc x (mem_bfsPushApp.mp hy').1
      have hm' : (q ++ (enumList (s.nbr x)).filter
          (fun n => decide (n ∉ vis))).length +
          (V \ (vis ∪ ((enumList (s.nbr x)).filter
            (fun n => decide (n ∉ vis))).toFinset)).card ≤ m := by
        rw [List.length_append, hcard]
        have hlen : (x :: q).length = q.length + 1 := rfl
        rw [hlen] at hm
        omega
      obtain ⟨f, out, hf⟩ := ih _ (insert x comp) _ hq' hm'
      exact ⟨f + 1, out, by rw [bfsPush_step]; exact hf⟩

theorem bfsPush_terminates {s : St} {V : Finset Nat} (hc : ClosedOn s V)
    {q : List Nat} {comp vis : Finset Nat} (hq : ∀ x ∈ q, x ∈ V) :
    ∃ f out, bfsPush s f q comp vis = some out :=
  bfsPush_term_aux s V hc (q.length + (V \ vis).card) q comp vis hq (le_refl _)

/-! ### `rewire` characterizations -/

theorem foldDrop_nbr (a : Nat) (L : List Nat) :
    ∀ (s : St) (x : Nat), ((L.foldl (fun t r => dropEdgeTo t a r) s)).nbr x =
      if x ∈ L then (s.nbr x).erase a else s.nbr x := by
  induction L with
  | nil => intro s x; simp
  | cons r L ih =>
    intro s x
    show ((L.foldl (fun t r => dropEdgeTo t a r) (dropEdgeTo s a r))).nbr x = _
    rw [ih]
    have hdrop : ∀ z, (dropEdgeTo s a r).nbr z =
        if z = r then (s.nbr r).erase a else s.nbr z := by
      intro z
      show Function.update s.nbr r ((s.nbr r).erase a) z = _
      by_cases hz : z = r
      · subst hz; simp [Function.update_same]
      · simp [Function.update_noteq hz, hz]
    by_cases hxL : x ∈ L
    · rw [if_pos hxL, hdrop, if_pos (List.mem_cons_of_mem r hxL)]
      by_cases hxr : x = r
      · subst hxr; rw [if_pos rfl, Finset.erase_idem]
      · rw [if_neg hxr]
    · rw [if_neg hxL, hdrop]
      by_cases hxr : x = r
      · subst hxr; rw [if_pos rfl, if_pos (List.mem_cons_self _ _)]
      · rw [if_neg hxr, if_neg (by simp [hxr, hxL])]

theorem foldAdd_nbr (a : Nat) (L : List Nat) :
    ∀ (s : St) (x : Nat), ((L.foldl (fun t d => addEdgeTo t a d) s)).nbr x =
      if x ∈ L then insert a (s.nbr x) else s.nbr x := by
  induction L with
  | nil => intro s x; simp
  | cons r L ih =>
    intro s x
    show ((L.foldl (fun t d => addEdgeTo t a d) (addEdgeTo s a r))).nbr x = _
    rw [ih]
    have hadd : ∀ z, (addEdgeTo s a r).nbr z =
        if z = r then insert a (s.nbr r) else s.nbr z := by
      intro z
      show Function.update s.nbr r (insert a (s.nbr r)) z = _
      by_cases hz : z = r
      · subst hz; simp [Function.update_same]
      · simp [Function.update_noteq hz, hz]
    by_cases hxL : x ∈ L
    · rw [if_pos hxL, hadd, if_pos (List.mem_cons_of_mem r hxL)]
      by_cases hxr : x = r
      · subst hxr; rw [if_pos rfl, Finset.insert_idem]
      · rw [if_neg hxr]
    · rw [if_neg hxL, hadd]
      by_cases hxr : x = r
      · subst hxr; rw [if_pos rfl, if_pos (List.mem_cons_self _ _)]
      · rw [if_neg hxr, if_neg (by simp [hxr, hxL])]

theorem foldDrop_cc (a : Nat) (L : List Nat) :
    ∀ s : St, ((L.foldl (fun t r => dropEdgeTo t a r) s)).ccId = s.ccId ∧
      ((L.foldl (fun t r => dropEdgeTo t a r) s)).ccSet = s.ccSet ∧
      ((L.foldl (fun t r => dropEdgeTo t a r) s)).fresh = s.fresh := by
  induction L with
  | nil => intro s; exact ⟨rfl, rfl, rfl⟩
  | cons r L ih =>
    intro s
    exact ih (dropEdgeTo s a r)

theorem foldAdd_cc (a : Nat) (L : List Nat) :
    ∀ s : St, ((L.foldl (fun t d => addEdgeTo t a d) s)).ccId = s.ccId ∧
      ((L.foldl (fun t d => addEdgeTo t a d) s)).ccSet = s.ccSet ∧
      ((L.foldl (fun t d => addEdgeTo t a d) s)).fresh = s.fresh := by
  induction L with
  | nil => intro s; exact ⟨rfl, rfl, rfl⟩
  | cons r L ih =>
    intro s
    exact ih (addEdgeTo s a r)

theorem rewire_nbr (s : St) (a : Nat) (ns : Finset Nat) (x : Nat) :
    (rewire s a ns).nbr x =
      if x = a then ns
      else if x ∈ s.nbr a \ ns then (s.nbr x).erase a
      else if x ∈ ns \ s.nbr a then insert a (s.nbr x)
      else s.nbr x := by
  have hdef : (rewire s a ns).nbr = Function.update
      ((enumList (ns \ s.nbr a)).foldl (fun t d => addEdgeTo t a d)
        ((enumList (s.nbr a \ ns)).foldl (fun t r => dropEdgeTo t a r) s)).nbr
      a ns := rfl
  rw [hdef]
  by_cases hxa : x = a
  · subst hxa; rw [Function.update_same, if_pos rfl]
  · rw [Function.update_noteq hxa, if_neg hxa, foldAdd_nbr, foldDrop_nbr]
    simp only [mem_enumList]
    by_cases hrem : x ∈ s.nbr a \ ns
    · have hnadd : x ∉ ns \ s.nbr a := by
        intro h'
        exact (Finset.mem_sdiff.mp h').2 (Finset.mem_sdiff.mp hrem).1
      rw [if_neg hnadd, if_pos hrem, if_pos hrem]
    · rw [if_neg hrem, if_neg hrem]

theorem rewireAddFirst_nbr (s : St) (a : Nat) (ns : Finset Nat) (x : Nat) :
    (rewireAddFirst s a ns).nbr x =
      if x = a then ns
      else if x ∈ s.nbr a \ ns then (s.nbr x).erase a
      else if x ∈ ns \ s.nbr a then insert a (s.nbr x)
      else s.nbr x := by
  have hdef : (rewireAddFirst s a ns).nbr = Function.update
      ((enumList (s.nbr a \ ns)).foldl (fun t r => dropEdgeTo t a r)
        ((enumList (ns \ s.nbr a)).foldl (fun t d => addEdgeTo t a d) s)).nbr
      a ns := rfl
  rw [hdef]
  by_cases hxa : x = a
  · subst hxa; rw [Function.update_same, if_pos rfl]
  · rw [Function.update_noteq hxa, if_neg hxa, foldDrop_nbr, foldAdd_nbr]
    simp only [mem_enumList]
    by_cases hrem : x ∈ s.nbr a \ ns
    · have hnadd : x ∉ ns \ s.nbr a := by
        intro h'
        exact (Finset.mem_sdiff.mp h').2 (Finset.mem_sdiff.mp hrem).1
      rw [if_pos hrem, if_neg hnadd, if_pos hrem]
    · rw [if_neg hrem, if_neg hrem]

theorem rewire_cc (s : St) (a : Nat) (ns : Finset Nat) :
    (rewire s a ns).ccId = s.ccId ∧ (rewire s a ns).ccSet = s.ccSet ∧
      (rewire s a ns).fresh = s.fresh := by
  obtain ⟨h1, h2, h3⟩ := foldDrop_cc a (enumList (s.nbr a \ ns)) s
  obtain ⟨h4, h5, h6⟩ := foldAdd_cc a (enumList (ns \ s.nbr a))
    ((enumList (s.nbr a \ ns)).foldl (fun t r => dropEdgeTo t a r) s)
  exact ⟨h4.trans h1, h5.trans h2, h6.trans h3⟩

theorem rewire_eq_rewireAddFirst (s : St) (a : Nat) (ns : Finset Nat) :
    rewire s a ns = rewireAddFirst s a ns := by
  obtain ⟨h1, h2, h3⟩ := rewire_cc s a ns
  obtain ⟨h4, h5, h6⟩ := foldAdd_cc a (enumList (ns \ s.nbr a)) s
  obtain ⟨h7, h8, h9⟩ := foldDrop_cc a (enumList (s.nbr a \ ns))
    ((enumList (ns \ s.nbr a)).foldl (fun t d => addEdgeTo t a d) s)
  refine St.ext' ?_ ?_ ?_ ?_
  · funext x
    rw [rewire_nbr, rewireAddFirst_nbr]
  · rw [h1]
    exact (h7.trans h4).symm
  · rw [h2]
    exact (h8.trans h5).symm
  · rw [h3]
    exact (h9.trans h6).symm

theorem rewire_sym {s : St} (hs : NbrSym s) (a : Nat) (ns : Finset Nat) :
    NbrSym (rewire s a ns) := by
  intro x y
  rw [rewire_nbr, rewire_nbr]
  by_cases hxa : x = a
  · subst hxa
    rw [if_pos rfl]
    by_cases hya : y = x
    · subst hya; rw [if_pos rfl]
    · rw [if_neg hya]
      by_cases hyrem : y ∈ s.nbr x \ ns
      · rw [if_pos hyrem]
        simp only [Finset.mem_erase]
        constructor
        · intro hy
          exact absurd hy (Finset.mem_sdiff.mp hyrem).2
        · rintro ⟨h1, _⟩
          exact absurd rfl h1
      · rw [if_neg hyrem]
        by_cases hyadd : y ∈ ns \ s.nbr x
        · rw [if_pos hyadd]
          exact iff_of_true (Finset.mem_sdiff.mp hyadd).1 (Finset.mem_insert_self x _)
        · rw [if_neg hyadd]
          rw [Finset.mem_sdiff, not_and, not_not] at hyrem hyadd
          constructor
          · intro hy
            exact (hs x y).mp (hyadd hy)
          · intro hy
            exact hyrem ((hs y x).mp hy)
  · rw [if_neg hxa]
    by_cases hya : y = a
    · subst hya
      rw [if_pos rfl]
      by_cases hxrem : x ∈ s.nbr y \ ns
      · rw [if_pos hxrem]
        simp only [Finset.mem_erase]
        constructor
        · rintro ⟨h1, _⟩
          exact absurd rfl h1
        · intro hx
          exact absurd hx (Finset.mem_sdiff.mp hxrem).2
      · rw [if_neg hxrem]
        by_cases hxadd : x ∈ ns \ s.nbr y
        · rw [if_pos hxadd]
          exact iff_of_true (Finset.mem_insert_self y _) (Finset.mem_sdiff.mp hxadd).1
        · rw [if_neg hxadd]
          rw [Finset.mem_sdiff, not_and, not_not] at hxrem hxadd
          constructor
          · intro hy
            exact hxrem ((hs x y).mp hy)
          · intro hx
            exact (hs y x).mp (hxadd hx)
    · rw [if_neg hya]
      have hmx : ∀ A : Finset Nat,
          (y ∈ if x ∈ s.nbr a \ ns then (s.nbr x).erase a
            else if x ∈ ns \ s.nbr a then insert a (s.nbr x) else s.nbr x) ↔
          y ∈ s.nbr x := by
        intro A
        split_ifs
        · rw [Finset.mem_erase]
          constructor
          · exact fun h' => h'.2
          · exact fun h' => ⟨hya, h'⟩
        · rw [Finset.mem_insert]
          constructor
          · rintro (rfl | h')
            · exact absurd rfl hya
            · exact h'
          · exact fun h' => Or.inr h'
        · exact Iff.rfl
      have hmy :
          (x ∈ if y ∈ s.nbr a \ ns then (s.nbr y).erase a
            else if y ∈ ns \ s.nbr a then insert a (s.nbr y) else s.nbr y) ↔
          x ∈ s.nbr y := by
        split_ifs
        · rw [Finset.mem_erase]
          constructor
          · exact fun h' => h'.2
          · exact fun h' => ⟨hxa, h'⟩
        · rw [Finset.mem_insert]
          constructor
          · rintro (rfl | h')
            · exact absurd rfl hxa
            · exact h'
          · exact fun h' => Or.inr h'
        · exact Iff.rfl
      rw [hmx ∅, hmy]
      exact hs x y

theorem rewire_nbr_a (s : St) (a : Nat) (ns : Finset Nat) :
    (rewire s a ns).nbr a = ns := by
  rw [rewire_nbr, if_pos rfl]

theorem rewire_edge_transfer {s : St} {a : Nat} {ns : Finset Nat} {z w : Nat}
    (hz : z ≠ a) (hw : w ≠ a) :
    (w ∈ (rewire s a ns).nbr z ↔ w ∈ s.nbr z) := by
  rw [rewire_nbr, if_neg hz]
  split_ifs
  · rw [Finset.mem_erase]
    constructor
    · exact fun h' => h'.2
    · exact fun h' => ⟨hw, h'⟩
  · rw [Finset.mem_insert]
    constructor
    · rintro (rfl | h')
      · exact absurd rfl hw
      · exact h'
    · exact fun h' => Or.inr h'
  · exact Iff.rfl

theorem rewire_reaches_fwd {s : St} {a : Nat} {ns : Finset Nat} {x y : Nat}
    (h : Reaches s x y) :
    Reaches (rewire s a ns) x y ∨ Reaches (rewire s a ns) x a ∨
      ∃ r ∈ s.nbr a \ ns, Reaches (rewire s a ns) x r := by
  induction h with
  | refl => exact Or.inl (reaches_refl _ x)
  | @tail z w hpre hstep ih =>
    rcases ih with ih' | ih' | ih'
    · by_cases hza : z = a
      · exact Or.inr (Or.inl (hza ▸ ih'))
      · by_cases hwa : w = a
        · have hstep' : a ∈ s.nbr z := by rw [← hwa]; exact hstep
          by_cases hzrem : z ∈ s.nbr a \ ns
          · exact Or.inr (Or.inr ⟨z, hzrem, ih'⟩)
          · refine Or.inr (Or.inl (Relation.ReflTransGen.tail ih' ?_))
            show a ∈ (rewire s a ns).nbr z
            rw [rewire_nbr, if_neg hza, if_neg hzrem]
            by_cases hzadd : z ∈ ns \ s.nbr a
            · rw [if_pos hzadd]
              exact Finset.mem_insert_self _ _
            · rw [if_neg hzadd]
              exact hstep'
        · refine Or.inl (Relation.ReflTransGen.tail ih' ?_)
          show w ∈ (rewire s a ns).nbr z
          rw [rewire_edge_transfer hza hwa]
          exact hstep
    · exact Or.inr (Or.inl ih')
    · exact Or.inr (Or.inr ih')

theorem rewire_reaches_bwd {s : St} {a : Nat} {ns : Finset Nat} {x y : Nat}
    (h : Reaches (rewire s a ns) x y) :
    Reaches s x y ∨ Reaches s x a ∨ ∃ d ∈ ns \ s.nbr a, Reaches s x d := by
  induction h with
  | refl => exact Or.inl (reaches_refl s x)
  | @tail z w hpre hstep ih =>
    rcases ih with ih' | ih' | ih'
    · by_cases hza : z = a
      · exact Or.inr (Or.inl (hza ▸ ih'))
      · by_cases hwa : w = a
        · have hstep' : a ∈ (rewire s a ns).nbr z := hwa ▸ hstep
          rw [rewire_nbr, if_neg hza] at hstep'
          by_cases hzrem : z ∈ s.nbr a \ ns
          · rw [if_pos hzrem, Finset.mem_erase] at hstep'
            exact absurd rfl hstep'.1
          · rw [if_neg hzrem] at hstep'
            by_cases hzadd : z ∈ ns \ s.nbr a
            · exact Or.inr (Or.inr ⟨z, hzadd, ih'⟩)
            · rw [if_neg hzadd] at hstep'
              exact Or.inr (Or.inl (Relation.ReflTransGen.tail ih' hstep'))
        · refine Or.inl (Relation.ReflTransGen.tail ih' ?_)
          exact (rewire_edge_transfer hza hwa).mp hstep
    · exact Or.inr (Or.inl ih')
    · exact Or.inr (Or.inr ih')

theorem rewire_untouched {s : St} {a : Nat} {ns : Finset Nat} {x : Nat}
    (hs : NbrSym s)
    (hx1 : ¬ Reaches (rewire s a ns) x a)
    (hx2 : ∀ r ∈ s.nbr a \ ns, ¬ Reaches (rewire s a ns) x r) :
    ∀ y, Reaches (rewire s a ns) x y ↔ Reaches s x y := by
  have hkill : ∀ z, Reaches s x z → Reaches (rewire s a ns) x z := by
    intro z hz
    rcases @rewire_reaches_fwd s a ns x z hz with h' | h' | ⟨r, hr, h'⟩
    · exact h'
    · exact absurd h' hx1
    · exact absurd h' (hx2 r hr)
  intro y
  constructor
  · intro h
    rcases rewire_reaches_bwd h with h' | h' | ⟨d, hd, h'⟩
    · exact h'
    · exact absurd (hkill a h') hx1
    · exfalso
      have htd : Reaches (rewire s a ns) x d := hkill d h'
      have hda : a ∈ (rewire s a ns).nbr d := by
        refine ((rewire_sym hs a ns) a d).mp ?_
        rw [rewire_nbr_a]
        exact (Finset.mem_sdiff.mp hd).1
      exact hx1 (Relation.ReflTransGen.tail htd hda)
  · exact hkill y

/-! ### `recompute` loop invariant -/

theorem assignFresh_nbr (t : St) (c : Finset Nat) : (assignFresh t c).nbr = t.nbr := rfl

theorem assignFresh_ccId (t : St) (c : Finset Nat) (n : Nat) :
    (assignFresh t c).ccId n = if n ∈ c then t.fresh else t.ccId n := rfl

theorem assignFresh_ccSet (t : St) (c : Finset Nat) (j : Nat) :
    (assignFresh t c).ccSet j = if j = t.fresh then c else t.ccSet j := by
  show Function.update t.ccSet t.fresh c j = _
  by_cases hj : j = t.fresh
  · subst hj; simp [Function.update_same]
  · simp [Function.update_noteq hj, hj]

theorem assignFresh_fresh (t : St) (c : Finset Nat) :
    (assignFresh t c).fresh = t.fresh + 1 := rfl

theorem recompute_cons (fuel r : Nat) (rest : List Nat) (vg : Finset Nat) (t : St) :
    recompute fuel (r :: rest) vg t =
      if r ∈ vg then recompute fuel rest vg t
      else
        match bfsPush t fuel [r] ∅ (insert r vg) with
        | none => none
        | some (comp, vg2) => recompute fuel rest vg2 (assignFresh t comp) := rfl

theorem recompute_main {s0 s1 : St} {V : Finset Nat} {base : Nat}
    (hsym1 : NbrSym s1) (hcl1 : ClosedOn s1 V)
    (hbase : ∀ x ∈ V, s0.ccId x < base) :
    ∀ (rs : List Nat) (fuel : Nat) (vg : Finset Nat) (t t' : St),
      recompute fuel rs vg t = some t' →
      t.nbr = s1.nbr →
      base ≤ t.fresh →
      (∀ x ∈ rs, x ∈ V) →
      (∀ x ∈ vg, x ∈ V) →
      (∀ x ∈ vg, ∀ y, Reaches s1 x y → y ∈ vg) →
      (∀ x ∈ vg, (∀ y, y ∈ t.ccSet (t.ccId x) ↔ Reaches s1 x y) ∧
        base ≤ t.ccId x ∧ t.ccId x < t.fresh) →
      (∀ x ∈ vg, ∀ y ∈ vg, (t.ccId x = t.ccId y ↔ Reaches s1 x y)) →
      (∀ x ∈ V, x ∉ vg → t.ccId x = s0.ccId x ∧
        t.ccSet (s0.ccId x) = s0.ccSet (s0.ccId x)) →
      t'.nbr = s1.nbr ∧ t.fresh ≤ t'.fresh ∧
      (∀ x, (x ∈ vg ∨ ∃ r ∈ rs, Reaches s1 r x) →
        (∀ y, y ∈ t'.ccSet (t'.ccId x) ↔ Reaches s1 x y) ∧
        base ≤ t'.ccId x ∧ t'.ccId x < t'.fresh) ∧
      (∀ x y, (x ∈ vg ∨ ∃ r ∈ rs, Reaches s1 r x) →
        (y ∈ vg ∨ ∃ r ∈ rs, Reaches s1 r y) →
        (t'.ccId x = t'.ccId y ↔ Reaches s1 x y)) ∧
      (∀ x ∈ V, ¬(x ∈ vg ∨ ∃ r ∈ rs, Reaches s1 r x) →
        t'.ccId x = s0.ccId x ∧ t'.ccSet (s0.ccId x) = s0.ccSet (s0.ccId x)) := by
  intro rs
  induction rs with
  | nil =>
    intro fuel vg t t' h hnbr hfr hrs hvgV hvgcl hdone hdoneid hpend
    cases h
    refine ⟨hnbr, le_refl _, ?_, ?_, ?_⟩
    · intro x hx
      rcases hx with hx | ⟨r, hr, _⟩
      · exact hdone x hx
      · cases hr
    · intro x y hx hy
      rcases hx with hx | ⟨r, hr, _⟩
      · rcases hy with hy | ⟨r, hr, _⟩
        · exact hdoneid x hx y hy
        · cases hr
      · cases hr
    · intro x hxV hx
      refine hpend x hxV ?_
      intro hxvg
      exact hx (Or.inl hxvg)
  | cons r rest ih =>
    intro fuel vg t t' h hnbr hfr hrs hvgV hvgcl hdone hdoneid hpend
    have hrV : r ∈ V := hrs r (List.mem_cons_self _ _)
    have hrest : ∀ x ∈ rest, x ∈ V := fun x hx => hrs x (List.mem_cons_of_mem _ hx)
    rw [recompute_cons] at h
    by_cases hrv : r ∈ vg
    · rw [if_pos hrv] at h
      obtain ⟨c1, c2, c3, c4, c5⟩ :=
        ih fuel vg t t' h hnbr hfr hrest hvgV hvgcl hdone hdoneid hpend
      have hDiff : ∀ x, (x ∈ vg ∨ ∃ rr ∈ r :: rest, Reaches s1 rr x) ↔
          (x ∈ vg ∨ ∃ rr ∈ rest, Reaches s1 rr x) := by
        intro x
        constructor
        · rintro (hx | ⟨rr, hrr, hx⟩)
          · exact Or.inl hx
          · rcases List.mem_cons.mp hrr with rfl | hrr'
            · exact Or.inl (hvgcl rr hrv x hx)
            · exact Or.inr ⟨rr, hrr', hx⟩
        · rintro (hx | ⟨rr, hrr, hx⟩)
          · exact Or.inl hx
          · exact Or.inr ⟨rr, List.mem_cons_of_mem _ hrr, hx⟩
      refine ⟨c1, c2, ?_, ?_, ?_⟩
      · intro x hx
        exact c3 x ((hDiff x).mp hx)
      · intro x y hx hy
        exact c4 x y ((hDiff x).mp hx) ((hDiff y).mp hy)
      · intro x hxV hx
        refine c5 x hxV ?_
        intro hx'
        exact hx ((hDiff x).mpr hx')
    · rw [if_neg hrv] at h
      cases hb : bfsPush t fuel [r] ∅ (insert r vg) with
      | none => rw [hb] at h; cases h
      | some pr =>
        obtain ⟨comp, vg2⟩ := pr
        rw [hb] at h
        have hRt : ∀ u v, Reaches t u v ↔ Reaches s1 u v := fun u v =>
          reaches_congr (fun z => congrFun hnbr z)
        have hdisj : ∀ y, Reaches t r y → y ∉ vg := by
          intro y hy hyvg
          exact hrv (hvgcl y hyvg r (reaches_symm hsym1 ((hRt r y).mp hy)))
        obtain ⟨hcomp, hvg2⟩ := bfsPush_spec hb hdisj
        have hcomp1 : ∀ x, x ∈ comp ↔ Reaches s1 r x := by
          intro x
          rw [hcomp x, hRt]
        have hcompdisj : ∀ x ∈ comp, x ∉ vg := by
          intro x hx
          exact hdisj x ((hcomp x).mp hx)
        have hcompV : ∀ x ∈ comp, x ∈ V := by
          intro x hx
          exact reaches_mem_closed hcl1 hrV ((hcomp1 x).mp hx)
        -- hypotheses for the recursive call on `assignFresh t comp`
        have hnbr' : (assignFresh t comp).nbr = s1.nbr := by
          rw [assignFresh_nbr]; exact hnbr
        have hfr' : base ≤ (assignFresh t comp).fresh := by
          rw [assignFresh_fresh]; omega
        have hvgV' : ∀ x ∈ vg2, x ∈ V := by
          intro x hx
          rw [hvg2] at hx
          rcases Finset.mem_union.mp hx with hx' | hx'
          · exact hvgV x hx'
          · exact hcompV x hx'
        have hvgcl' : ∀ x ∈ vg2, ∀ y, Reaches s1 x y → y ∈ vg2 := by
          intro x hx y hy
          rw [hvg2] at hx ⊢
          rcases Finset.mem_union.mp hx with hx' | hx'
          · exact Finset.mem_union_left _ (hvgcl x hx' y hy)
          · refine Finset.mem_union_right _ ((hcomp1 y).mpr ?_)
            exact reaches_trans ((hcomp1 x).mp hx') hy
        have hdone' : ∀ x ∈ vg2,
            (∀ y, y ∈ (assignFresh t comp).ccSet ((assignFresh t comp).ccId x) ↔
              Reaches s1 x y) ∧
            base ≤ (assignFresh t comp).ccId x ∧
            (assignFresh t comp).ccId x < (assignFresh t comp).fresh := by
          intro x hx
          rw [hvg2] at hx
          rcases Finset.mem_union.mp hx with hx' | hx'
          · have hxc : x ∉ comp := by
              intro hxc
              exact hcompdisj x hxc hx'
            rw [assignFresh_ccId, if_neg hxc, assignFresh_fresh]
            obtain ⟨hd1, hd2, hd3⟩ := hdone x hx'
            refine ⟨?_, hd2, by omega⟩
            intro y
            rw [assignFresh_ccSet, if_neg (by omega)]
            exact hd1 y
          · rw [assignFresh_ccId, if_pos hx', assignFresh_fresh,
              assignFresh_ccSet, if_pos rfl]
            refine ⟨?_, by omega, by omega⟩
            intro y
            rw [hcomp1 y]
            constructor
            · intro hy
              exact reaches_trans (reaches_symm hsym1 ((hcomp1 x).mp hx')) hy
            · intro hy
              exact reaches_trans ((hcomp1 x).mp hx') hy
        have hdoneid' : ∀ x ∈ vg2, ∀ y ∈ vg2,
            ((assignFresh t comp).ccId x = (assignFresh t comp).ccId y ↔
              Reaches s1 x y) := by
          intro x hx y hy
          rw [hvg2] at hx hy
          rcases Finset.mem_union.mp hx with hx' | hx' <;>
            rcases Finset.mem_union.mp hy with hy' | hy'
          · rw [assignFresh_ccId, assignFresh_ccId,
              if_neg (fun hc => hcompdisj x hc hx'),
              if_neg (fun hc => hcompdisj y hc hy')]
            exact hdoneid x hx' y hy'
          · rw [assignFresh_ccId, assignFresh_ccId,
              if_neg (fun hc => hcompdisj x hc hx'), if_pos hy']
            refine iff_of_false ?_ ?_
            · have := (hdone x hx').2.2
              omega
            · intro hxy
              exact hcompdisj y hy' (hvgcl x hx' y hxy)
          · rw [assignFresh_ccId, assignFresh_ccId, if_pos hx',
              if_neg (fun hc => hcompdisj y hc hy')]
            refine iff_of_false ?_ ?_
            · have := (hdone y hy').2.2
              omega
            · intro hxy
              exact hcompdisj x hx'
                (hvgcl y hy' x (reaches_symm hsym1 hxy))
          · rw [assignFresh_ccId, assignFresh_ccId, if_pos hx', if_pos hy']
            refine iff_of_true rfl ?_
            exact reaches_trans (reaches_symm hsym1 ((hcomp1 x).mp hx'))
              ((hcomp1 y).mp hy')
        have hpend' : ∀ x ∈ V, x ∉ vg2 →
            (assignFresh t comp).ccId x = s0.ccId x ∧
            (assignFresh t comp).ccSet (s0.ccId x) = s0.ccSet (s0.ccId x) := by
          intro x hxV hx
          rw [hvg2] at hx
          have hxvg : x ∉ vg := fun hc => hx (Finset.mem_union_left _ hc)
          have hxc : x ∉ comp := fun hc => hx (Finset.mem_union_right _ hc)
          obtain ⟨hp1, hp2⟩ := hpend x hxV hxvg
          rw [assignFresh_ccId, if_neg hxc, assignFresh_ccSet]
          have hlt : s0.ccId x < base := hbase x hxV
          rw [if_neg (by omega)]
          exact ⟨hp1, hp2⟩
        obtain ⟨c1, c2, c3, c4, c5⟩ := ih fuel vg2 (assignFresh t comp) t' h
          hnbr' hfr' hrest hvgV' hvgcl' hdone' hdoneid' hpend'
        have hfr2 : t.fresh ≤ t'.fresh := by
          rw [assignFresh_fresh] at c2
          omega
        have hDiff : ∀ x, (x ∈ vg ∨ ∃ rr ∈ r :: rest, Reaches s1 rr x) ↔
            (x ∈ vg2 ∨ ∃ rr ∈ rest, Reaches s1 rr x) := by
          intro x
          constructor
          · rintro (hx | ⟨rr, hrr, hx⟩)
            · exact Or.inl (by rw [hvg2]; exact Finset.mem_union_left _ hx)
            · rcases List.mem_cons.mp hrr with rfl | hrr'
              · refine Or.inl ?_
                rw [hvg2]
                exact Finset.mem_union_right _ ((hcomp1 x).mpr hx)
              · exact Or.inr ⟨rr, hrr', hx⟩
          · rintro (hx | ⟨rr, hrr, hx⟩)
            · rw [hvg2] at hx
              rcases Finset.mem_union.mp hx with hx' | hx'
              · exact Or.inl hx'
              · exact Or.inr ⟨r, List.mem_cons_self _ _, (hcomp1 x).mp hx'⟩
            · exact Or.inr ⟨rr, List.mem_cons_of_mem _ hrr, hx⟩
        refine ⟨c1, hfr2, ?_, ?_, ?_⟩
        · intro x hx
          exact c3 x ((hDiff x).mp hx)
        · intro x y hx hy
          exact c4 x y ((hDiff x).mp hx) ((hDiff y).mp hy)
        · intro x hxV hx
          refine c5 x hxV ?_
          intro hx'
          exact hx ((hDiff x).mpr hx')

/-! ### `Node.update`: shape, totality, invariant preservation -/

theorem update_elim {f : Nat} {s : St} {a : Nat} {ns : Finset Nat} {out : St}
    (h : Node.update f s a ns = some out) :
    ∃ comp vg, bfsPush (rewire s a ns) f [a] ∅ (insert a ∅) = some (comp, vg) ∧
      recompute f (enumList (s.nbr a \ ns)) vg
        (assignFresh (rewire s a ns) comp) = some out := by
  unfold Node.update at h
  cases hb : bfsPush (rewire s a ns) f [a] ∅ (insert a ∅) with
  | none => rw [hb] at h; cases h
  | some pr =>
    obtain ⟨comp, vg⟩ := pr
    rw [hb] at h
    exact ⟨comp, vg, rfl, h⟩

theorem rewire_closed {s : St} {V : Finset Nat} {a : Nat} {ns : Finset Nat}
    (hc : ClosedOn s V) (ha : a ∈ V) (hns : ns ⊆ V) :
    ClosedOn (rewire s a ns) V := by
  intro x y hy
  rw [rewire_nbr] at hy
  split_ifs at hy with h1 h2 h3
  · exact hns hy
  · exact hc x (Finset.mem_of_mem_erase hy)
  · rcases Finset.mem_insert.mp hy with rfl | hy'
    · exact ha
    · exact hc x hy'
  · exact hc x hy

theorem recompute_mono :
    ∀ {rs : List Nat} {f : Nat} {vg : Finset Nat} {t t' : St},
      recompute f rs vg t = some t' → ∀ {f2}, f ≤ f2 →
      recompute f2 rs vg t = some t' := by
  intro rs
  induction rs with
  | nil =>
    intro f vg t t' h f2 _
    cases h
    rfl
  | cons r rest ih =>
    intro f vg t t' h f2 hle
    rw [recompute_cons] at h ⊢
    by_cases hrv : r ∈ vg
    · rw [if_pos hrv] at h ⊢
      exact ih h hle
    · rw [if_neg hrv] at h ⊢
      cases hb : bfsPush t f [r] ∅ (insert r vg) with
      | none => rw [hb] at h; cases h
      | some pr =>
        obtain ⟨comp, vg2⟩ := pr
        rw [hb] at h
        rw [bfsPush_mono hb hle]
        exact ih h hle

theorem recompute_total {V : Finset Nat} :
    ∀ (rs : List Nat) (vg : Finset Nat) (t : St), ClosedOn t V →
      (∀ x ∈ rs, x ∈ V) →
      ∃ f t', recompute f rs vg t = some t' := by
  intro rs
  induction rs with
  | nil => intro vg t _ _; exact ⟨0, t, rfl⟩
  | cons r rest ih =>
    intro vg t hcl hrs
    by_cases hrv : r ∈ vg
    · obtain ⟨f, t', hf⟩ := ih vg t hcl
        (fun x hx => hrs x (List.mem_cons_of_mem _ hx))
      exact ⟨f, t', by rw [recompute_cons, if_pos hrv]; exact hf⟩
    · obtain ⟨f1, pr, hf1⟩ := @bfsPush_terminates t V hcl [r] ∅ (insert r vg)
        (by
          intro x hx
          rw [List.mem_singleton.mp hx]
          exact hrs r (List.mem_cons_self _ _))
      obtain ⟨comp, vg2⟩ := pr
      obtain ⟨f2, t', hf2⟩ := ih vg2 (assignFresh t comp)
        (by
          intro x
          rw [assignFresh_nbr]
          exact hcl x)
        (fun x hx => hrs x (List.mem_cons_of_mem _ hx))
      refine ⟨max f1 f2, t', ?_⟩
      rw [recompute_cons, if_neg hrv,
        bfsPush_mono hf1 (le_max_left f1 f2)]
      exact recompute_mono hf2 (le_max_right f1 f2)

theorem update_total {s : St} {V : Finset Nat} {a : Nat} {ns : Finset Nat}
    (hc : ClosedOn s V) (ha : a ∈ V) (hns : ns ⊆ V) :
    ∃ f out, Node.update f s a ns = some out := by
  have hcl1 : ClosedOn (rewire s a ns) V := rewire_closed hc ha hns
  obtain ⟨f1, pr, hf1⟩ := @bfsPush_terminates (rewire s a ns) V hcl1 [a] ∅
    (insert a ∅)
    (by
      intro x hx
      rw [List.mem_singleton.mp hx]
      exact ha)
  obtain ⟨comp, vg⟩ := pr
  obtain ⟨f2, t', hf2⟩ := recompute_total (enumList (s.nbr a \ ns)) vg
    (assignFresh (rewire s a ns) comp)
    (by
      intro x
      rw [assignFresh_nbr]
      exact hcl1 x)
    (by
      intro x hx
      rw [mem_enumList] at hx
      exact hc a (Finset.mem_sdiff.mp hx).1)
  refine ⟨max f1 f2, t', ?_⟩
  unfold Node.update
  rw [bfsPush_mono hf1 (le_max_left f1 f2)]
  exact recompute_mono hf2 (le_max_right f1 f2)

theorem update_main {s : St} {V : Finset Nat} {a : Nat} {ns : Finset Nat}
    {f : Nat} {out : St}
    (hInv : Invariant s V) (ha : a ∈ V) (hns : ns ⊆ V)
    (h : Node.update f s a ns = some out) :
    Invariant out V ∧ out.nbr = (rewire s a ns).nbr ∧
    (∀ x ∈ V,
      ¬(Reaches (rewire s a ns) a x ∨
        ∃ r ∈ s.nbr a \ ns, Reaches (rewire s a ns) r x) →
      out.ccId x = s.ccId x ∧ out.ccSet (s.ccId x) = s.ccSet (s.ccId x)) := by
  obtain ⟨hsym, hcl, hsound, hcc, hfb⟩ := hInv
  obtain ⟨comp, vg, hb, hrec⟩ := update_elim h
  have hsym1 : NbrSym (rewire s a ns) := rewire_sym hsym a ns
  have hcl1 : ClosedOn (rewire s a ns) V := rewire_closed hcl ha hns
  obtain ⟨hcomp, hvg⟩ := bfsPush_spec hb
    (by intro y _ hy; exact Finset.not_mem_empty y hy)
  have hvg' : vg = comp := by rw [hvg, Finset.empty_union]
  rw [hvg'] at hrec
  obtain ⟨hrid, hrset, hrfresh⟩ := rewire_cc s a ns
  have hcompV : ∀ x ∈ comp, x ∈ V := fun x hx =>
    reaches_mem_closed hcl1 ha ((hcomp x).mp hx)
  have hequiv : ∀ x ∈ comp, ∀ y,
      (Reaches (rewire s a ns) x y ↔ Reaches (rewire s a ns) a y) := by
    intro x hx y
    constructor
    · intro h'
      exact reaches_trans ((hcomp x).mp hx) h'
    · intro h'
      exact reaches_trans (reaches_symm hsym1 ((hcomp x).mp hx)) h'
  obtain ⟨c1, c2, c3, c4, c5⟩ := @recompute_main s (rewire s a ns) V
    s.fresh hsym1 hcl1 hfb
    (enumList (s.nbr a \ ns)) f comp (assignFresh (rewire s a ns) comp) out hrec
    (assignFresh_nbr _ _)
    (by rw [assignFresh_fresh, hrfresh]; omega)
    (by
      intro x hx
      rw [mem_enumList] at hx
      exact hcl a (Finset.mem_sdiff.mp hx).1)
    hcompV
    (by
      intro x hx y hy
      exact (hcomp y).mpr (reaches_trans ((hcomp x).mp hx) hy))
    (by
      intro x hx
      rw [assignFresh_ccId, if_pos hx, assignFresh_fresh, hrfresh]
      refine ⟨?_, le_refl _, by omega⟩
      intro y
      have hset : (assignFresh (rewire s a ns) comp).ccSet (rewire s a ns).fresh
          = comp := by
        rw [assignFresh_ccSet, if_pos rfl]
      rw [hrfresh] at hset
      rw [hset, hcomp y]
      exact (hequiv x hx y).symm
    )
    (by
      intro x hx y hy
      rw [assignFresh_ccId, assignFresh_ccId, if_pos hx, if_pos hy]
      refine iff_of_true rfl ?_
      exact reaches_trans (reaches_symm hsym1 ((hcomp x).mp hx)) ((hcomp y).mp hy))
    (by
      intro x hxV hx
      rw [assignFresh_ccId, if_neg hx, hrid, assignFresh_ccSet]
      have hlt : s.ccId x < s.fresh := hfb x hxV
      rw [if_neg (by rw [hrfresh]; omega), hrset]
      exact ⟨rfl, rfl⟩)
  have hAff : ∀ x, (x ∈ comp ∨
      ∃ r ∈ enumList (s.nbr a \ ns), Reaches (rewire s a ns) r x) ↔
      (Reaches (rewire s a ns) a x ∨
        ∃ r ∈ s.nbr a \ ns, Reaches (rewire s a ns) r x) := by
    intro x
    constructor
    · rintro (hx | ⟨r, hr, hx⟩)
      · exact Or.inl ((hcomp x).mp hx)
      · exact Or.inr ⟨r, mem_enumList.mp hr, hx⟩
    · rintro (hx | ⟨r, hr, hx⟩)
      · exact Or.inl ((hcomp x).mpr hx)
      · exact Or.inr ⟨r, mem_enumList.mpr hr, hx⟩
  have hAffR : ∀ x y, (x ∈ comp ∨
      ∃ r ∈ enumList (s.nbr a \ ns), Reaches (rewire s a ns) r x) →
      Reaches (rewire s a ns) x y →
      (y ∈ comp ∨
        ∃ r ∈ enumList (s.nbr a \ ns), Reaches (rewire s a ns) r y) := by
    rintro x y (hx | ⟨r, hr, hx⟩) hxy
    · exact Or.inl ((hcomp y).mpr (reaches_trans ((hcomp x).mp hx) hxy))
    · exact Or.inr ⟨r, hr, reaches_trans hx hxy⟩
  have huntouched : ∀ x, ¬(x ∈ comp ∨
      ∃ r ∈ enumList (s.nbr a \ ns), Reaches (rewire s a ns) r x) →
      ∀ y, Reaches (rewire s a ns) x y ↔ Reaches s x y := by
    intro x hx y
    refine rewire_untouched hsym ?_ ?_ y
    · intro hxa
      exact hx (Or.inl ((hcomp x).mpr (reaches_symm hsym1 hxa)))
    · intro r hr hxr
      exact hx (Or.inr ⟨r, mem_enumList.mpr hr,
        reaches_symm hsym1 hxr⟩)
  have hRout : ∀ u v, Reaches out u v ↔ Reaches (rewire s a ns) u v := fun u v =>
    reaches_congr (fun z => congrFun c1 z)
  have hfr_out : s.fresh < out.fresh := by
    have h1 : (assignFresh (rewire s a ns) comp).fresh = s.fresh + 1 := by
      rw [assignFresh_fresh, hrfresh]
    omega
  refine ⟨⟨?_, ?_, ?_, ?_, ?_⟩, c1, ?_⟩
  · -- symmetry
    intro x y
    rw [show out.nbr = (rewire s a ns).nbr from c1]
    exact hsym1 x y
  · -- closure
    intro x
    rw [show out.nbr = (rewire s a ns).nbr from c1]
    exact hcl1 x
  · -- soundness
    intro x hxV y hyV
    rw [hRout x y]
    by_cases hx : x ∈ comp ∨
        ∃ r ∈ enumList (s.nbr a \ ns), Reaches (rewire s a ns) r x
    · by_cases hy : y ∈ comp ∨
          ∃ r ∈ enumList (s.nbr a \ ns), Reaches (rewire s a ns) r y
      · exact c4 x y hx hy
      · refine iff_of_false ?_ ?_
        · obtain ⟨_, hb1, _⟩ := c3 x hx
          obtain ⟨hy1, _⟩ := c5 y hyV hy
          rw [hy1]
          have := hfb y hyV
          omega
        · intro hxy
          exact hy (hAffR x y hx hxy)
    · by_cases hy : y ∈ comp ∨
          ∃ r ∈ enumList (s.nbr a \ ns), Reaches (rewire s a ns) r y
      · refine iff_of_false ?_ ?_
        · obtain ⟨_, hb1, _⟩ := c3 y hy
          obtain ⟨hx1, _⟩ := c5 x hxV hx
          rw [hx1]
          have := hfb x hxV
          omega
        · intro hxy
          exact hx (hAffR y x hy (reaches_symm hsym1 hxy))
      · obtain ⟨hx1, _⟩ := c5 x hxV hx
        obtain ⟨hy1, _⟩ := c5 y hyV hy
        rw [hx1, hy1, huntouched x hx y]
        exact hsound x hxV y hyV
  · -- component contents
    intro x hxV y
    rw [hRout x y]
    by_cases hx : x ∈ comp ∨
        ∃ r ∈ enumList (s.nbr a \ ns), Reaches (rewire s a ns) r x
    · exact (c3 x hx).1 y
    · obtain ⟨hx1, hx2⟩ := c5 x hxV hx
      rw [hx1, hx2, huntouched x hx y]
      exact hcc x hxV y
  · -- freshness bound
    intro x hxV
    by_cases hx : x ∈ comp ∨
        ∃ r ∈ enumList (s.nbr a \ ns), Reaches (rewire s a ns) r x
    · exact (c3 x hx).2.2
    · obtain ⟨hx1, _⟩ := c5 x hxV hx
      rw [hx1]
      have := hfb x hxV
      omega
  · -- untouched frame
    intro x hxV hx
    refine c5 x hxV ?_
    intro hx'
    exact hx ((hAff x).mp hx')

/-! ### `Node.remove_node` and `createNode` facts -/

theorem remove_node_fst (s : St) (a : Nat) :
    (Node.remove_node s a).1 =
      { s with
          nbr := fun x =>
            if x = a then (∅ : Finset Nat)
            else if x ∈ s.nbr a then (s.nbr x).erase a else s.nbr x
          ccId := Function.update s.ccId a s.fresh
          ccSet := Function.update s.ccSet s.fresh ∅
          fresh := s.fresh + 1 } := by
  simp only [Node.remove_node]
  split_ifs <;> rfl

theorem remove_node_snd (s : St) (a : Nat) :
    (Node.remove_node s a).2 = if s.nbr a = ∅ then none else some typeErrorMsg := by
  simp only [Node.remove_node]
  split_ifs <;> rfl

theorem remove_node_err {s : St} {a : Nat} (h : s.nbr a ≠ ∅) :
    (Node.remove_node s a).2 = some typeErrorMsg := by
  rw [remove_node_snd, if_neg h]

theorem remove_node_cc_empty (s : St) (a : Nat) :
    (Node.remove_node s a).1.ccSet ((Node.remove_node s a).1.ccId a) = ∅ := by
  rw [remove_node_fst]
  show Function.update s.ccSet s.fresh ∅ (Function.update s.ccId a s.fresh a) = ∅
  rw [Function.update_same, Function.update_same]

theorem remove_node_sym {s : St} (hs : NbrSym s) (a : Nat) :
    NbrSym (Node.remove_node s a).1 := by
  rw [remove_node_fst]
  intro x y
  show (y ∈ if x = a then (∅ : Finset Nat)
      else if x ∈ s.nbr a then (s.nbr x).erase a else s.nbr x) ↔
    (x ∈ if y = a then (∅ : Finset Nat)
      else if y ∈ s.nbr a then (s.nbr y).erase a else s.nbr y)
  by_cases hxa : x = a
  · subst hxa
    rw [if_pos rfl]
    by_cases hya : y = x
    · subst hya
      rw [if_pos rfl]
    · rw [if_neg hya]
      by_cases hyx : y ∈ s.nbr x
      · rw [if_pos hyx]
        simp only [Finset.not_mem_empty, false_iff, Finset.mem_erase]
        rintro ⟨h1, _⟩
        exact h1 rfl
      · rw [if_neg hyx]
        simp only [Finset.not_mem_empty, false_iff]
        intro hx'
        exact hyx ((hs y x).mp hx')
  · rw [if_neg hxa]
    by_cases hya : y = a
    · subst hya
      rw [if_pos rfl]
      by_cases hxy : x ∈ s.nbr y
      · rw [if_pos hxy]
        simp only [Finset.not_mem_empty, iff_false, Finset.mem_erase]
        rintro ⟨h1, _⟩
        exact h1 rfl
      · rw [if_neg hxy]
        simp only [Finset.not_mem_empty, iff_false]
        intro hy'
        exact hxy ((hs x y).mp hy')
    · rw [if_neg hya]
      by_cases hxnb : x ∈ s.nbr a
      · rw [if_pos hxnb]
        by_cases hynb : y ∈ s.nbr a
        · rw [if_pos hynb]
          simp only [Finset.mem_erase]
          constructor
          · rintro ⟨h1, h2⟩
            exact ⟨hxa, (hs x y).mp h2⟩
          · rintro ⟨h1, h2⟩
            exact ⟨hya, (hs x y).mpr h2⟩
        · rw [if_neg hynb]
          simp only [Finset.mem_erase]
          constructor
          · rintro ⟨_, h2⟩
            exact (hs x y).mp h2
          · intro h2
            exact ⟨hya, (hs y x).mp h2⟩
      · rw [if_neg hxnb]
        by_cases hynb : y ∈ s.nbr a
        · rw [if_pos hynb]
          simp only [Finset.mem_erase]
          constructor
          · intro h2
            exact ⟨hxa, (hs x y).mp h2⟩
          · rintro ⟨_, h2⟩
            exact (hs x y).mpr h2
        · rw [if_neg hynb]
          exact hs x y

theorem reaches_isolated {s : St} {a y : Nat} (h0 : s.nbr a = ∅)
    (h : Reaches s a y) : y = a := by
  rcases (Relation.ReflTransGen.cases_head h) with rfl | ⟨z, hz, _⟩
  · rfl
  · rw [show adj s a z = (z ∈ s.nbr a) from rfl, h0] at hz
    cases hz

theorem remove_node_sound {s : St} {V : Finset Nat} {a : Nat}
    (hInv : Invariant s V) (ha : a ∈ V)
    (hdone : (Node.remove_node s a).2 = none) :
    Sound (Node.remove_node s a).1 V := by
  obtain ⟨hsym, hcl, hsound, hcc, hfb⟩ := hInv
  rw [remove_node_snd] at hdone
  have h0 : s.nbr a = ∅ := by
    by_cases h' : s.nbr a = ∅
    · exact h'
    · rw [if_neg h'] at hdone; cases hdone
  have hnbr_eq : ∀ x, (Node.remove_node s a).1.nbr x = s.nbr x := by
    intro x
    rw [remove_node_fst]
    show (if x = a then (∅ : Finset Nat)
      else if x ∈ s.nbr a then (s.nbr x).erase a else s.nbr x) = s.nbr x
    by_cases hxa : x = a
    · subst hxa
      rw [if_pos rfl, h0]
    · rw [if_neg hxa, h0]
      simp
  have hR : ∀ u v, Reaches (Node.remove_node s a).1 u v ↔ Reaches s u v :=
    fun u v => reaches_congr hnbr_eq
  have hccid : ∀ x, (Node.remove_node s a).1.ccId x =
      if x = a then s.fresh else s.ccId x := by
    intro x
    rw [remove_node_fst]
    show Function.update s.ccId a s.fresh x = _
    by_cases hxa : x = a
    · subst hxa; rw [Function.update_same, if_pos rfl]
    · rw [Function.update_noteq hxa, if_neg hxa]
  intro x hxV y hyV
  rw [hR x y, hccid x, hccid y]
  by_cases hxa : x = a
  · subst hxa
    rw [if_pos rfl]
    by_cases hya : y = x
    · subst hya
      rw [if_pos rfl]
      exact iff_of_true rfl (reaches_refl s _)
    · rw [if_neg hya]
      refine iff_of_false ?_ ?_
      · have := hfb y hyV
        omega
      · intro h'
        exact hya (reaches_isolated h0 h')
  · rw [if_neg hxa]
    by_cases hya : y = a
    · subst hya
      rw [if_pos rfl]
      refine iff_of_false ?_ ?_
      · have := hfb x hxV
        omega
      · intro h'
        exact hxa (reaches_isolated h0 (reaches_symm hsym h'))
    · rw [if_neg hya]
      exact hsound x hxV y hyV

theorem createNode_nbr (s : St) (a x : Nat) :
    (createNode s a).nbr x = if x = a then ∅ else s.nbr x := by
  show Function.update s.nbr a ∅ x = _
  by_cases hx : x = a
  · subst hx; rw [Function.update_same, if_pos rfl]
  · rw [Function.update_noteq hx, if_neg hx]

theorem createNode_ccId (s : St) (a x : Nat) :
    (createNode s a).ccId x = if x = a then s.fresh else s.ccId x := by
  show Function.update s.ccId a s.fresh x = _
  by_cases hx : x = a
  · subst hx; rw [Function.update_same, if_pos rfl]
  · rw [Function.update_noteq hx, if_neg hx]

theorem createNode_ccSet (s : St) (a j : Nat) :
    (createNode s a).ccSet j = if j = s.fresh then {a} else s.ccSet j := by
  show Function.update s.ccSet s.fresh {a} j = _
  by_cases hj : j = s.fresh
  · subst hj; rw [Function.update_same, if_pos rfl]
  · rw [Function.update_noteq hj, if_neg hj]

theorem reaches_no_in_edges {s : St} {a : Nat} (h : ∀ z, a ∉ s.nbr z) {x : Nat}
    (hr : Reaches s x a) : x = a := by
  rcases Relation.ReflTransGen.cases_tail hr with h' | ⟨c, _, hc⟩
  · exact h'.symm
  · exact absurd hc (h c)

theorem createNode_no_in_edges {s : St} {V : Finset Nat} {a : Nat}
    (hcl : ClosedOn s V) (ha : a ∉ V) : ∀ z, a ∉ (createNode s a).nbr z := by
  intro z hz
  rw [createNode_nbr] at hz
  by_cases hza : z = a
  · rw [if_pos hza] at hz
    cases hz
  · rw [if_neg hza] at hz
    exact ha (hcl z hz)

theorem createNode_reaches {s : St} {V : Finset Nat} {a : Nat}
    (hcl : ClosedOn s V) (ha : a ∉ V) {x : Nat} (hx : x ∈ V) (y : Nat) :
    (Reaches (createNode s a) x y ↔ Reaches s x y) := by
  constructor
  · intro h
    induction h with
    | refl => exact reaches_refl s x
    | @tail z w hpre hstep ih =>
      have hzV : z ∈ V := reaches_mem_closed hcl hx ih
      have hza : z ≠ a := fun hc => ha (hc ▸ hzV)
      refine Relation.ReflTransGen.tail ih ?_
      have := hstep
      rw [show adj (createNode s a) z w = (w ∈ (createNode s a).nbr z) from rfl,
        createNode_nbr, if_neg hza] at this
      exact this
  · intro h
    induction h with
    | refl => exact reaches_refl _ x
    | @tail z w hpre hstep ih =>
      have hzV : z ∈ V := reaches_mem_closed hcl hx hpre
      have hza : z ≠ a := fun hc => ha (hc ▸ hzV)
      refine Relation.ReflTransGen.tail ih ?_
      show w ∈ (createNode s a).nbr z
      rw [createNode_nbr, if_neg hza]
      exact hstep

theorem createNode_main {s : St} {V : Finset Nat} {a : Nat}
    (hInv : Invariant s V) (ha : a ∉ V) :
    Invariant (createNode s a) (insert a V) := by
  obtain ⟨hsym, hcl, hsound, hcc, hfb⟩ := hInv
  have hno : ∀ z, a ∉ (createNode s a).nbr z := createNode_no_in_edges hcl ha
  have hacc : ∀ y, Reaches (createNode s a) a y ↔ y = a := by
    intro y
    constructor
    · intro h
      refine reaches_isolated ?_ h
      rw [createNode_nbr, if_pos rfl]
    · rintro rfl
      exact reaches_refl _ y
  refine ⟨?_, ?_, ?_, ?_, ?_⟩
  · -- symmetry
    intro x y
    rw [createNode_nbr, createNode_nbr]
    by_cases hxa : x = a
    · subst hxa
      rw [if_pos rfl]
      by_cases hya : y = x
      · rw [if_pos hya]
        simp
      · rw [if_neg hya]
        simp only [Finset.not_mem_empty, false_iff]
        intro hc
        exact ha (hcl y hc)
    · rw [if_neg hxa]
      by_cases hya : y = a
      · subst hya
        rw [if_pos rfl]
        simp only [Finset.not_mem_empty, iff_false]
        intro hc
        exact ha (hcl x hc)
      · rw [if_neg hya]
        exact hsym x y
  · -- closure
    intro x y hy
    rw [createNode_nbr] at hy
    by_cases hxa : x = a
    · rw [if_pos hxa] at hy
      cases hy
    · rw [if_neg hxa] at hy
      exact Finset.mem_insert_of_mem (hcl x hy)
  · -- soundness
    intro x hxV y hyV
    rcases Finset.mem_insert.mp hxV with rfl | hxV'
    · rw [createNode_ccId, if_pos rfl]
      rcases Finset.mem_insert.mp hyV with rfl | hyV'
      · rw [createNode_ccId, if_pos rfl]
        exact iff_of_true rfl (reaches_refl _ y)
      · have hya : y ≠ x := fun hc => ha (hc ▸ hyV')
        rw [createNode_ccId, if_neg hya]
        refine iff_of_false ?_ ?_
        · have := hfb y hyV'
          omega
        · intro h'
          exact hya (hacc y |>.mp h')
    · rcases Finset.mem_insert.mp hyV with rfl | hyV'
      · have hxa : x ≠ y := fun hc => ha (hc ▸ hxV')
        rw [createNode_ccId, if_neg hxa, createNode_ccId, if_pos rfl]
        refine iff_of_false ?_ ?_
        · have := hfb x hxV'
          omega
        · intro h'
          exact hxa (reaches_no_in_edges hno h')
      · have hxa : x ≠ a := fun hc => ha (hc ▸ hxV')
        have hya : y ≠ a := fun hc => ha (hc ▸ hyV')
        rw [createNode_ccId, if_neg hxa, createNode_ccId, if_neg hya,
          createNode_reaches hcl ha hxV' y]
        exact hsound x hxV' y hyV'
  · -- component contents
    intro x hxV y
    rcases Finset.mem_insert.mp hxV with rfl | hxV'
    · rw [createNode_ccId, if_pos rfl, createNode_ccSet, if_pos rfl, hacc y,
        Finset.mem_singleton]
    · have hxa : x ≠ a := fun hc => ha (hc ▸ hxV')
      rw [createNode_ccId, if_neg hxa, createNode_ccSet,
        if_neg (by have := hfb x hxV'; omega),
        createNode_reaches hcl ha hxV' y]
      exact hcc x hxV' y
  · -- freshness bound
    intro x hxV
    show (createNode s a).ccId x < s.fresh + 1
    rcases Finset.mem_insert.mp hxV with rfl | hxV'
    · rw [createNode_ccId, if_pos rfl]
      omega
    · by_cases hxa : x = a
      · rw [createNode_ccId, if_pos hxa]
        omega
      · rw [createNode_ccId, if_neg hxa]
        have := hfb x hxV'
        omega

/-! ### `Graph` wrapper facts -/

theorem graph_add_node_mem {g : Graph} {k : Nat} (h : k ∈ g.keys) :
    Graph.add_node g k = (g, k) := by
  unfold Graph.add_node
  rw [if_pos h]

theorem graph_add_node_new {g : Graph} {k : Nat} (h : k ∉ g.keys) :
    Graph.add_node g k =
      ({ keys := insert k g.keys, st := createNode g.st k }, k) := by
  unfold Graph.add_node
  rw [if_neg h]

theorem graph_add_node_keys (g : Graph) (k : Nat) :
    (Graph.add_node g k).1.keys = insert k g.keys := by
  by_cases h : k ∈ g.keys
  · rw [graph_add_node_mem h]
    exact (Finset.insert_eq_self.mpr h).symm
  · rw [graph_add_node_new h]

theorem graph_add_node_nbr (g : Graph) (k x : Nat) :
    (Graph.add_node g k).1.st.nbr x =
      if k ∉ g.keys ∧ x = k then ∅ else g.st.nbr x := by
  by_cases h : k ∈ g.keys
  · rw [graph_add_node_mem h, if_neg (by tauto)]
  · rw [graph_add_node_new h]
    show (createNode g.st k).nbr x = _
    rw [createNode_nbr]
    by_cases hx : x = k
    · rw [if_pos hx, if_pos ⟨h, hx⟩]
    · rw [if_neg hx, if_neg (by tauto)]

theorem graph_add_node_ccId (g : Graph) (k x : Nat) (hx : x ≠ k) :
    (Graph.add_node g k).1.st.ccId x = g.st.ccId x := by
  by_cases h : k ∈ g.keys
  · rw [graph_add_node_mem h]
  · rw [graph_add_node_new h]
    show (createNode g.st k).ccId x = _
    rw [createNode_ccId, if_neg hx]

theorem graph_add_node_ccSet (g : Graph) (k j : Nat) (hj : j < g.st.fresh) :
    (Graph.add_node g k).1.st.ccSet j = g.st.ccSet j := by
  by_cases h : k ∈ g.keys
  · rw [graph_add_node_mem h]
  · rw [graph_add_node_new h]
    show (createNode g.st k).ccSet j = _
    rw [createNode_ccSet, if_neg (by omega)]

theorem graph_add_node_fresh_le (g : Graph) (k : Nat) :
    g.st.fresh ≤ (Graph.add_node g k).1.st.fresh := by
  by_cases h : k ∈ g.keys
  · rw [graph_add_node_mem h]
  · rw [graph_add_node_new h]
    show g.st.fresh ≤ g.st.fresh + 1
    omega

theorem graph_add_edge_st (g : Graph) (u v : Nat) :
    (Graph.add_edge g u v).st =
      { (Graph.add_node (Graph.add_node g u).1 v).1.st with
          nbr := Function.update
            (Function.update (Graph.add_node (Graph.add_node g u).1 v).1.st.nbr u
              (insert v ((Graph.add_node (Graph.add_node g u).1 v).1.st.nbr u)))
            v
            (insert u
              (Function.update (Graph.add_node (Graph.add_node g u).1 v).1.st.nbr u
                (insert v ((Graph.add_node (Graph.add_node g u).1 v).1.st.nbr u)) v)) } :=
  rfl

theorem graph_add_edge_keys (g : Graph) (u v : Nat) :
    (Graph.add_edge g u v).keys = insert v (insert u g.keys) := by
  show (Graph.add_node (Graph.add_node g u).1 v).1.keys = _
  rw [graph_add_node_keys, graph_add_node_keys]

theorem graph_add_edge_nbr_frame (g : Graph) (u v w : Nat) (hwu : w ≠ u)
    (hwv : w ≠ v) : (Graph.add_edge g u v).st.nbr w = g.st.nbr w := by
  rw [graph_add_edge_st]
  show Function.update _ v _ w = _
  rw [Function.update_noteq hwv, Function.update_noteq hwu,
    graph_add_node_nbr, graph_add_node_nbr]
  rw [if_neg (by tauto), if_neg (by tauto)]

theorem graph_add_edge_cc_frame (g : Graph) (u v : Nat) (hf : KeysFresh g) :
    ∀ w ∈ g.keys, (Graph.add_edge g u v).st.ccId w = g.st.ccId w ∧
      (Graph.add_edge g u v).st.ccSet (g.st.ccId w) = g.st.ccSet (g.st.ccId w) := by
  intro w hw
  have hwu : (w = u → u ∈ g.keys) := fun hc => hc ▸ hw
  have h1 : (Graph.add_node g u).1.st.ccId w = g.st.ccId w := by
    by_cases hu : u ∈ g.keys
    · rw [graph_add_node_mem hu]
    · exact graph_add_node_ccId g u w (fun hc => hu (hwu hc))
  have hwkeys1 : w ∈ (Graph.add_node g u).1.keys := by
    rw [graph_add_node_keys]
    exact Finset.mem_insert_of_mem hw
  have hwv : (w = v → v ∈ (Graph.add_node g u).1.keys) := fun hc => hc ▸ hwkeys1
  have h2 : (Graph.add_node (Graph.add_node g u).1 v).1.st.ccId w =
      (Graph.add_node g u).1.st.ccId w := by
    by_cases hv : v ∈ (Graph.add_node g u).1.keys
    · rw [graph_add_node_mem hv]
    · exact graph_add_node_ccId _ v w (fun hc => hv (hwv hc))
  have hlt : g.st.ccId w < g.st.fresh := hf w hw
  have h3 : (Graph.add_node g u).1.st.ccSet (g.st.ccId w) =
      g.st.ccSet (g.st.ccId w) := graph_add_node_ccSet g u _ hlt
  have h4 : (Graph.add_node (Graph.add_node g u).1 v).1.st.ccSet (g.st.ccId w) =
      (Graph.add_node g u).1.st.ccSet (g.st.ccId w) := by
    refine graph_add_node_ccSet _ v _ ?_
    calc g.st.ccId w < g.st.fresh := hlt
      _ ≤ (Graph.add_node g u).1.st.fresh := graph_add_node_fresh_le g u
  constructor
  · rw [graph_add_edge_st]
    show (Graph.add_node (Graph.add_node g u).1 v).1.st.ccId w = _
    rw [h2, h1]
  · rw [graph_add_edge_st]
    show (Graph.add_node (Graph.add_node g u).1 v).1.st.ccSet (g.st.ccId w) = _
    rw [h4, h3]

theorem graph_remove_edge_st_cc (g : Graph) (u v : Nat) :
    (Graph.remove_edge g u v).1.st.ccId = g.st.ccId ∧
    (Graph.remove_edge g u v).1.st.ccSet = g.st.ccSet ∧
    (Graph.remove_edge g u v).1.st.fresh = g.st.fresh ∧
    (Graph.remove_edge g u v).1.keys = g.keys := by
  unfold Graph.remove_edge
  split_ifs <;> exact ⟨rfl, rfl, rfl, rfl⟩

theorem graph_remove_edge_nbr_frame (g : Graph) (u v w : Nat) (hwu : w ≠ u)
    (hwv : w ≠ v) : (Graph.remove_edge g u v).1.st.nbr w = g.st.nbr w := by
  unfold Graph.remove_edge
  split_ifs
  · show Function.update (Function.update g.st.nbr u ((g.st.nbr u).erase v)) v
      ((Function.update g.st.nbr u ((g.st.nbr u).erase v) v).erase u) w = _
    rw [Function.update_noteq hwv, Function.update_noteq hwu]
  · rfl

theorem keysClosed_graph_add_node {g : Graph} (hc : KeysClosed g) (k : Nat) :
    KeysClosed (Graph.add_node g k).1 := by
  intro x hx y hy
  rw [graph_add_node_keys]
  rw [graph_add_node_nbr] at hy
  split_ifs at hy with h'
  · cases hy
  · rw [graph_add_node_keys] at hx
    rcases Finset.mem_insert.mp hx with rfl | hx'
    · by_cases hk : x ∈ g.keys
      · exact Finset.mem_insert_of_mem (hc x hk hy)
      · exact absurd ⟨hk, rfl⟩ h'
    · exact Finset.mem_insert_of_mem (hc x hx' hy)

theorem symOn_graph_add_node {g : Graph} (hs : SymOn g) (hc : KeysClosed g)
    (k : Nat) : SymOn (Graph.add_node g k).1 := by
  intro a ha b hb
  rw [graph_add_node_keys] at ha hb
  rw [graph_add_node_nbr, graph_add_node_nbr]
  by_cases hk : k ∈ g.keys
  · rw [if_neg (by tauto), if_neg (by tauto)]
    have ha' : a ∈ g.keys := by
      rcases Finset.mem_insert.mp ha with rfl | h'
      · exact hk
      · exact h'
    have hb' : b ∈ g.keys := by
      rcases Finset.mem_insert.mp hb with rfl | h'
      · exact hk
      · exact h'
    exact hs a ha' b hb'
  · rcases Finset.mem_insert.mp ha with rfl | ha'
    · rw [if_pos ⟨hk, rfl⟩]
      rcases Finset.mem_insert.mp hb with rfl | hb'
      · rw [if_pos ⟨hk, rfl⟩]
      · rw [if_neg (by
          rintro ⟨_, rfl⟩
          exact hk hb')]
        simp only [Finset.not_mem_empty, false_iff]
        intro hmem
        exact hk (hc b hb' hmem)
    · rw [if_neg (by
        rintro ⟨_, rfl⟩
        exact hk ha')]
      rcases Finset.mem_insert.mp hb with rfl | hb'
      · rw [if_pos ⟨hk, rfl⟩]
        simp only [Finset.not_mem_empty, iff_false]
        intro hmem
        exact hk (hc a ha' hmem)
      · rw [if_neg (by
          rintro ⟨_, rfl⟩
          exact hk hb')]
        exact hs a ha' b hb'

theorem symOn_graph_remove_node {g : Graph} (hs : SymOn g) (k : Nat) :
    SymOn (Graph.remove_node g k) := by
  unfold Graph.remove_node
  split_ifs with hk
  · intro a ha b hb
    have ha' := Finset.mem_of_mem_erase ha
    have hb' := Finset.mem_of_mem_erase hb
    have hak := Finset.ne_of_mem_erase ha
    have hbk := Finset.ne_of_mem_erase hb
    show (b ∈ if a ∈ g.st.nbr k then (g.st.nbr a).erase k else g.st.nbr a) ↔
      (a ∈ if b ∈ g.st.nbr k then (g.st.nbr b).erase k else g.st.nbr b)
    have hma : (b ∈ if a ∈ g.st.nbr k then (g.st.nbr a).erase k
        else g.st.nbr a) ↔ b ∈ g.st.nbr a := by
      split_ifs
      · rw [Finset.mem_erase]
        exact ⟨fun h' => h'.2, fun h' => ⟨hbk, h'⟩⟩
      · exact Iff.rfl
    have hmb : (a ∈ if b ∈ g.st.nbr k then (g.st.nbr b).erase k
        else g.st.nbr b) ↔ a ∈ g.st.nbr b := by
      split_ifs
      · rw [Finset.mem_erase]
        exact ⟨fun h' => h'.2, fun h' => ⟨hak, h'⟩⟩
      · exact Iff.rfl
    rw [hma, hmb]
    exact hs a ha' b hb'
  · exact hs

theorem graph_add_edge_nbr_mem (g : Graph) (u v x y : Nat) :
    y ∈ (Graph.add_edge g u v).st.nbr x ↔
      y ∈ (Graph.add_node (Graph.add_node g u).1 v).1.st.nbr x ∨
        (x = u ∧ y = v) ∨ (x = v ∧ y = u) := by
  have heq : (Graph.add_edge g u v).st.nbr =
      Function.update
        (Function.update (Graph.add_node (Graph.add_node g u).1 v).1.st.nbr u
          (insert v ((Graph.add_node (Graph.add_node g u).1 v).1.st.nbr u)))
        v
        (insert u
          (Function.update (Graph.add_node (Graph.add_node g u).1 v).1.st.nbr u
            (insert v ((Graph.add_node (Graph.add_node g u).1 v).1.st.nbr u)) v)) :=
    rfl
  rw [heq]
  by_cases hxv : x = v
  · subst hxv
    rw [Function.update_same]
    by_cases hxu : x = u
    · rw [← hxu, Function.update_same]
      simp only [Finset.mem_insert]
      tauto
    · rw [Function.update_noteq (fun hc => hxu hc)]
      simp only [Finset.mem_insert]
      constructor
      · rintro (rfl | hy)
        · tauto
        · exact Or.inl hy
      · rintro (hy | ⟨rfl, rfl⟩ | ⟨_, rfl⟩)
        · exact Or.inr hy
        · exact absurd rfl hxu
        · exact Or.inl rfl
  · rw [Function.update_noteq hxv]
    by_cases hxu : x = u
    · subst hxu
      rw [Function.update_same]
      simp only [Finset.mem_insert]
      constructor
      · rintro (rfl | hy)
        · tauto
        · exact Or.inl hy
      · rintro (hy | ⟨_, rfl⟩ | ⟨rfl, rfl⟩)
        · exact Or.inr hy
        · exact Or.inl rfl
        · exact absurd rfl hxv
    · rw [Function.update_noteq hxu]
      constructor
      · exact fun hy => Or.inl hy
      · rintro (hy | ⟨rfl, rfl⟩ | ⟨rfl, rfl⟩)
        · exact hy
        · exact absurd rfl hxu
        · exact absurd rfl hxv

theorem symOn_graph_add_edge {g : Graph} (hs : SymOn g) (hc : KeysClosed g)
    (u v : Nat) : SymOn (Graph.add_edge g u v) := by
  have hs1 : SymOn (Graph.add_node (Graph.add_node g u).1 v).1 :=
    symOn_graph_add_node (symOn_graph_add_node hs hc u)
      (keysClosed_graph_add_node hc u) v
  intro a ha b hb
  have hkeys : (Graph.add_edge g u v).keys =
      (Graph.add_node (Graph.add_node g u).1 v).1.keys := by
    rw [graph_add_edge_keys, graph_add_node_keys, graph_add_node_keys]
  rw [hkeys] at ha hb
  rw [graph_add_edge_nbr_mem, graph_add_edge_nbr_mem]
  constructor
  · rintro (hy | ⟨rfl, rfl⟩ | ⟨rfl, rfl⟩)
    · exact Or.inl ((hs1 a ha b hb).mp hy)
    · exact Or.inr (Or.inr ⟨rfl, rfl⟩)
    · exact Or.inr (Or.inl ⟨rfl, rfl⟩)
  · rintro (hy | ⟨rfl, rfl⟩ | ⟨rfl, rfl⟩)
    · exact Or.inl ((hs1 a ha b hb).mpr hy)
    · exact Or.inr (Or.inr ⟨rfl, rfl⟩)
    · exact Or.inr (Or.inl ⟨rfl, rfl⟩)

theorem graph_remove_edge_nbr_mem (g : Graph) (u v : Nat)
    (hk : u ∈ g.keys ∧ v ∈ g.keys) (x y : Nat) :
    y ∈ (Graph.remove_edge g u v).1.st.nbr x ↔
      (y ∈ g.st.nbr x ∧ ¬(x = u ∧ y = v) ∧ ¬(x = v ∧ y = u)) := by
  have heq : (Graph.remove_edge g u v).1.st.nbr =
      Function.update (Function.update g.st.nbr u ((g.st.nbr u).erase v)) v
        ((Function.update g.st.nbr u ((g.st.nbr u).erase v) v).erase u) := by
    unfold Graph.remove_edge
    rw [if_pos hk]
  rw [heq]
  by_cases hxv : x = v
  · subst hxv
    rw [Function.update_same]
    by_cases hxu : x = u
    · rw [← hxu, Function.update_same]
      simp only [Finset.mem_erase]
      tauto
    · rw [Function.update_noteq (fun hc => hxu hc)]
      simp only [Finset.mem_erase]
      tauto
  · rw [Function.update_noteq hxv]
    by_cases hxu : x = u
    · subst hxu
      rw [Function.update_same]
      simp only [Finset.mem_erase]
      tauto
    · rw [Function.update_noteq hxu]
      tauto

theorem graph_remove_edge_of_absent (g : Graph) (u v : Nat)
    (hk : ¬(u ∈ g.keys ∧ v ∈ g.keys)) :
    Graph.remove_edge g u v = (g, false) := by
  unfold Graph.remove_edge
  rw [if_neg hk]

theorem symOn_graph_remove_edge {g : Graph} (hs : SymOn g) (u v : Nat) :
    SymOn (Graph.remove_edge g u v).1 := by
  by_cases hk : u ∈ g.keys ∧ v ∈ g.keys
  · intro a ha b hb
    rw [(graph_remove_edge_st_cc g u v).2.2.2] at ha hb
    rw [graph_remove_edge_nbr_mem g u v hk, graph_remove_edge_nbr_mem g u v hk]
    have := hs a ha b hb
    tauto
  · rw [graph_remove_edge_of_absent g u v hk]
    exact hs

/-! ### Symmetry preservation of the node operations -/

theorem createNode_sym {s : St} {a : Nat} (hs : NbrSym s)
    (hno : ∀ z, a ∉ s.nbr z) : NbrSym (createNode s a) := by
  intro x y
  rw [createNode_nbr, createNode_nbr]
  by_cases hxa : x = a
  · subst hxa
    rw [if_pos rfl]
    by_cases hya : y = x
    · rw [if_pos hya]
      simp
    · rw [if_neg hya]
      simp only [Finset.not_mem_empty, false_iff]
      exact hno y
  · rw [if_neg hxa]
    by_cases hya : y = a
    · subst hya
      rw [if_pos rfl]
      simp only [Finset.not_mem_empty, iff_false]
      exact hno x
    · rw [if_neg hya]
      exact hs x y

theorem add_node_sym {s : St} {a : Nat} {P : List Nat} {f : Nat} {out : St}
    (hs : NbrSym s) (h : Node.add_node f s a P = some out) : NbrSym out := by
  obtain ⟨vis, _, hout⟩ := add_node_elim h
  have hnbr : out.nbr = (addEdges s a P).nbr := by rw [hout]
  intro x y
  rw [hnbr]
  exact addEdges_sym hs a P x y

theorem recompute_nbr :
    ∀ {rs : List Nat} {f : Nat} {vg : Finset Nat} {t t' : St},
      recompute f rs vg t = some t' → t'.nbr = t.nbr := by
  intro rs
  induction rs with
  | nil =>
    intro f vg t t' h
    cases h
    rfl
  | cons r rest ih =>
    intro f vg t t' h
    rw [recompute_cons] at h
    by_cases hrv : r ∈ vg
    · rw [if_pos hrv] at h
      exact ih h
    · rw [if_neg hrv] at h
      cases hb : bfsPush t f [r] ∅ (insert r vg) with
      | none => rw [hb] at h; cases h
      | some pr =>
        obtain ⟨comp, vg2⟩ := pr
        rw [hb] at h
        rw [ih h, assignFresh_nbr]

theorem update_sym {s : St} {a : Nat} {ns : Finset Nat} {f : Nat} {out : St}
    (hs : NbrSym s) (h : Node.update f s a ns = some out) : NbrSym out := by
  obtain ⟨comp, vg, hb, hrec⟩ := update_elim h
  have hnbr : out.nbr = (rewire s a ns).nbr := by
    rw [recompute_nbr hrec, assignFresh_nbr]
  intro x y
  rw [hnbr]
  exact rewire_sym hs a ns x y

/-! ### Invariants of the concrete example states -/

theorem inv_st0 : Invariant st0 ∅ := by
  refine ⟨?_, ?_, ?_, ?_, ?_⟩
  · intro a b
    show b ∈ (∅ : Finset Nat) ↔ a ∈ (∅ : Finset Nat)
    simp
  · intro x
    exact Finset.Subset.refl _
  · intro a ha
    cases Finset.not_mem_empty a ha
  · intro a ha
    cases Finset.not_mem_empty a ha
  · intro a ha
    cases Finset.not_mem_empty a ha

theorem inv_st2 : Invariant st2 (insert 1 (insert 0 ∅)) := by
  have h1 : Invariant (createNode st0 0) (insert 0 ∅) :=
    createNode_main inv_st0 (Finset.not_mem_empty 0)
  exact createNode_main h1 (by decide)

/-! ### Claim theorems -/

/-- Claim C1 (refuted by the code): the disconnect postcondition asks for
`self.component = {self}` and recomputed neighbor regions; `remove_node`
instead always rebinds `self.cc` to a freshly allocated *empty* set
object, and on the path graph `0 - 1 - 2` disconnecting the middle node
raises `TypeError` (the `recompute_cc(nbr)` call lacks its
`visited_global` argument), so no region is ever recomputed. -/
theorem claim_C1 :
    (∀ (s : St) (a : Nat),
      (Node.remove_node s a).1.ccSet ((Node.remove_node s a).1.ccId a) = ∅) ∧
    (Node.remove_node pathSt 1).2 = some typeErrorMsg ∧
    (Node.remove_node pathSt 1).1.ccSet
      ((Node.remove_node pathSt 1).1.ccId 1) = ∅ :=
  ⟨remove_node_cc_empty, by decide, by decide⟩

/-- Claim C2 (refuted by the code): disconnect is claimed total, but
`remove_node` raises `TypeError` for every node that has at least one
neighbor, because the first loop iteration calls the two-parameter
helper `recompute_cc` with a single argument. -/
theorem claim_C2 (s : St) (a : Nat) (h : s.nbr a ≠ ∅) :
    (Node.remove_node s a).2 = some typeErrorMsg :=
  remove_node_err h

theorem claim_C2_witness :
    twoSt.nbr 0 ≠ ∅ ∧ (Node.remove_node twoSt 0).2 = some typeErrorMsg :=
  ⟨by decide, claim_C2 twoSt 0 (by decide)⟩

/-- Claim C3 counterexample: `Graph.add_edge` links two freshly created
nodes without touching any component object, so a path exists while the
two nodes still hold distinct `cc` objects — component soundness does
not hold after the wrapper's edge operations. -/
theorem claim_C3_counterexample :
    Reaches (Graph.add_edge g0 1 2).st 1 2 ∧
    (Graph.add_edge g0 1 2).st.ccId 1 ≠ (Graph.add_edge g0 1 2).st.ccId 2 :=
  ⟨reaches_single (by decide), by decide⟩

/-- Claim C3 as amended: component soundness (same `cc` object iff a
path exists) is preserved by the node-level operations — by
`Node.add_node`, by `Node.update`, and by `Node.remove_node` whenever it
completes (i.e. on isolated nodes) — but not by the wrapper's edge and
node removal operations, which never maintain components. -/
theorem claim_C3 {s : St} {V : Finset Nat} {a : Nat}
    (hInv : Invariant s V) (ha : a ∈ V) :
    (∀ P : List Nat, (∀ p ∈ P, p ∈ V) →
      ∀ f out, Node.add_node f s a P = some out → Sound out V) ∧
    (∀ ns : Finset Nat, ns ⊆ V →
      ∀ f out, Node.update f s a ns = some out → Sound out V) ∧
    ((Node.remove_node s a).2 = none → Sound (Node.remove_node s a).1 V) := by
  refine ⟨?_, ?_, ?_⟩
  · intro P hP f out h
    exact (add_node_main hInv ha hP h).1.2.2.1
  · intro ns hns f out h
    exact (update_main hInv ha hns h).1.2.2.1
  · intro h
    exact remove_node_sound hInv ha h

theorem claim_C3_witness :
    Invariant st2 (insert 1 (insert 0 ∅)) ∧
    0 ∈ insert 1 (insert 0 (∅ : Finset Nat)) ∧
    ((Node.remove_node st2 0).2 = none →
      Sound (Node.remove_node st2 0).1 (insert 1 (insert 0 ∅))) :=
  ⟨inv_st2, by decide, (claim_C3 inv_st2 (by decide)).2.2⟩

/-- Claim C4 (connect postcondition): under the section-3 invariants,
`Node.add_node` completes, every node reachable from `self` afterwards
points at the same component object as `self`, and that object's
contents are exactly the reachable set. -/
theorem claim_C4 {s : St} {V : Finset Nat} {a : Nat} {P : List Nat}
    (hInv : Invariant s V) (ha : a ∈ V) (hP : ∀ p ∈ P, p ∈ V) :
    (∃ f out, Node.add_node f s a P = some out) ∧
    ∀ f out, Node.add_node f s a P = some out →
      (∀ x, Reaches out a x → out.ccId x = out.ccId a) ∧
      (∀ y, y ∈ out.ccSet (out.ccId a) ↔ Reaches out a y) := by
  refine ⟨add_node_total hInv.2.1 ha hP, ?_⟩
  intro f out h
  obtain ⟨hio, _⟩ := add_node_main hInv ha hP h
  obtain ⟨hsym', hcl', hsound', hcc', _⟩ := hio
  constructor
  · intro x hr
    have hxV : x ∈ V := reaches_mem_closed hcl' ha hr
    exact (hsound' x hxV a ha).mpr (reaches_symm hsym' hr)
  · exact hcc' a ha

theorem claim_C4_witness :
    Invariant st2 (insert 1 (insert 0 ∅)) ∧
    0 ∈ insert 1 (insert 0 (∅ : Finset Nat)) ∧
    (∀ p ∈ [1], p ∈ insert 1 (insert 0 (∅ : Finset Nat))) ∧
    ((∃ f out, Node.add_node f st2 0 [1] = some out) ∧
      ∀ f out, Node.add_node f st2 0 [1] = some out →
        (∀ x, Reaches out 0 x → out.ccId x = out.ccId 0) ∧
        (∀ y, y ∈ out.ccSet (out.ccId 0) ↔ Reaches out 0 y)) :=
  ⟨inv_st2, by decide, by decide, claim_C4 inv_st2 (by decide) (by decide)⟩

/-- Claim C5 (update postcondition/equivalence): under the section-3
invariants `Node.update` completes; the resulting neighbor sets are
exactly those obtained by dropping the symmetric edges to `old - S` and
adding the symmetric edges to `S - old` — the same state in either order
of removals and additions — with `self.neighbors = S`; every node's
component object again holds exactly its reachable set, and nodes in no
affected region keep their component object and contents untouched. -/
theorem claim_C5 {s : St} {V : Finset Nat} {a : Nat} {ns : Finset Nat}
    (hInv : Invariant s V) (ha : a ∈ V) (hns : ns ⊆ V) :
    (∃ f out, Node.update f s a ns = some out) ∧
    ∀ f out, Node.update f s a ns = some out →
      out.nbr = (rewire s a ns).nbr ∧
      rewire s a ns = rewireAddFirst s a ns ∧
      out.nbr a = ns ∧
      (∀ x ∈ V, ∀ y, (y ∈ out.ccSet (out.ccId x) ↔ Reaches out x y)) ∧
      (∀ x ∈ V,
        ¬(Reaches (rewire s a ns) a x ∨
          ∃ r ∈ s.nbr a \ ns, Reaches (rewire s a ns) r x) →
        out.ccId x = s.ccId x ∧ out.ccSet (s.ccId x) = s.ccSet (s.ccId x)) := by
  refine ⟨update_total hInv.2.1 ha hns, ?_⟩
  intro f out h
  obtain ⟨hio, hnbr, hframe⟩ := update_main hInv ha hns h
  refine ⟨hnbr, rewire_eq_rewireAddFirst s a ns, ?_, hio.2.2.2.1, hframe⟩
  rw [show out.nbr = (rewire s a ns).nbr from hnbr, rewire_nbr_a]

theorem claim_C5_witness :
    Invariant st2 (insert 1 (insert 0 ∅)) ∧
    0 ∈ insert 1 (insert 0 (∅ : Finset Nat)) ∧
    ({1} : Finset Nat) ⊆ insert 1 (insert 0 ∅) ∧
    (∃ f out, Node.update f st2 0 {1} = some out) :=
  ⟨inv_st2, by decide, by decide, (claim_C5 inv_st2 (by decide) (by decide)).1⟩

/-- Claim C6 (symmetry): after every completed operation — node
construction (for a fresh, unreferenced address), `Node.add_node`,
`Node.remove_node` (including its partial error state), `Node.update`,
and the wrapper's `add_node`, `remove_node`, `add_edge`, `remove_edge` —
neighbor sets are symmetric: `B ∈ A.neighbors ↔ A ∈ B.neighbors`. -/
theorem claim_C6 (s : St) (g : Graph) (a k u v : Nat) (P : List Nat)
    (ns : Finset Nat) (hs : NbrSym s) (hno : ∀ z, a ∉ s.nbr z)
    (hgs : SymOn g) (hgc : KeysClosed g) :
    NbrSym (createNode s a) ∧
    (∀ f out, Node.add_node f s a P = some out → NbrSym out) ∧
    NbrSym (Node.remove_node s a).1 ∧
    (∀ f out, Node.update f s a ns = some out → NbrSym out) ∧
    SymOn (Graph.add_node g k).1 ∧
    SymOn (Graph.remove_node g k) ∧
    SymOn (Graph.add_edge g u v) ∧
    SymOn (Graph.remove_edge g u v).1 :=
  ⟨createNode_sym hs hno,
    fun _ _ h => add_node_sym hs h,
    remove_node_sym hs a,
    fun _ _ h => update_sym hs h,
    symOn_graph_add_node hgs hgc k,
    symOn_graph_remove_node hgs k,
    symOn_graph_add_edge hgs hgc u v,
    symOn_graph_remove_edge hgs u v⟩

theorem claim_C6_witness :
    NbrSym st0 ∧ (∀ z, 5 ∉ st0.nbr z) ∧ SymOn g0 ∧ KeysClosed g0 ∧
    NbrSym (createNode st0 5) := by
  have h1 : NbrSym st0 := by
    intro a b
    show b ∈ (∅ : Finset Nat) ↔ a ∈ (∅ : Finset Nat)
    simp
  have h2 : ∀ z, 5 ∉ st0.nbr z := by
    intro z
    exact Finset.not_mem_empty 5
  have h3 : SymOn g0 := by
    unfold SymOn
    decide
  have h4 : KeysClosed g0 := by
    unfold KeysClosed
    decide
  exact ⟨h1, h2, h3, h4, (claim_C6 st0 g0 5 3 1 2 [1] {1} h1 h2 h3 h4).1⟩

/-- Claim C7 (connect idempotence): under the section-3 invariants,
running `Node.add_node` on the same single peer a second time completes
and returns exactly the state the first call produced — the same
neighbor sets, the same component-object pointers and contents, and the
same allocator. -/
theorem claim_C7 {s : St} {V : Finset Nat} {a b : Nat} {f1 : Nat} {s1 : St}
    (hInv : Invariant s V) (ha : a ∈ V) (hb : b ∈ V)
    (h1 : Node.add_node f1 s a [b] = some s1) :
    (∃ f2 s2, Node.add_node f2 s1 a [b] = some s2) ∧
    ∀ f2 s2, Node.add_node f2 s1 a [b] = some s2 → s2 = s1 :=
  add_node_idem hInv ha hb h1

theorem claim_C7_witness :
    Invariant st2 (insert 1 (insert 0 ∅)) ∧
    0 ∈ insert 1 (insert 0 (∅ : Finset Nat)) ∧
    1 ∈ insert 1 (insert 0 (∅ : Finset Nat)) ∧
    ∃ s1, Node.add_node 9 st2 0 [1] = some s1 ∧
      ((∃ f2 s2, Node.add_node f2 s1 0 [1] = some s2) ∧
        ∀ f2 s2, Node.add_node f2 s1 0 [1] = some s2 → s2 = s1) := by
  refine ⟨inv_st2, by decide, by decide, ?_⟩
  obtain ⟨s1, hs1⟩ := Option.isSome_iff_exists.mp
    (show (Node.add_node 9 st2 0 [1]).isSome = true by decide)
  exact ⟨s1, hs1, claim_C7 inv_st2 (by decide) (by decide) hs1⟩

/-- Claim C8 (refuted by the code): `Graph.neighbors` is supposed to
return the neighbor addresses without raising, but it reads `n.key` on
node objects whose only address field is `MAC`, so it raises
`AttributeError` for every present key whose node has at least one
neighbor (the empty comprehension hides the bug on isolated nodes). -/
theorem claim_C8 (g : Graph) (k : Nat) (hk : k ∈ g.keys)
    (hne : g.st.nbr k ≠ ∅) :
    Graph.neighbors g k = Except.error keyAttrErrorMsg := by
  unfold Graph.neighbors
  rw [if_pos hk]
  obtain ⟨y, hy⟩ := Finset.nonempty_iff_ne_empty.mpr hne
  have hymem : y ∈ enumList (g.st.nbr k) := mem_enumList.mpr hy
  cases he : enumList (g.st.nbr k) with
  | nil =>
    rw [he] at hymem
    cases hymem
  | cons x l =>
    rfl

theorem claim_C8_witness :
    1 ∈ (Graph.add_edge g0 1 2).keys ∧
    (Graph.add_edge g0 1 2).st.nbr 1 ≠ ∅ ∧
    Graph.neighbors (Graph.add_edge g0 1 2) 1 = Except.error keyAttrErrorMsg ∧
    Graph.neighbors (Graph.add_node g0 5).1 5 = Except.ok [] :=
  ⟨by decide, by decide, claim_C8 (Graph.add_edge g0 1 2) 1 (by decide) (by decide),
    by rfl⟩

/-- Claim C9 (frame effect of the wrapper's edge operations):
`Graph.add_edge` and `Graph.remove_edge` change only the two endpoints'
neighbor sets; for every preexisting key the component pointer and the
pointed-at object's contents are untouched (`add_edge` merely allocates
fresh singleton objects for endpoints it creates), and `remove_edge`
leaves every `cc` field of the state byte-for-byte unchanged. -/
theorem claim_C9 (g : Graph) (u v : Nat) (hf : KeysFresh g) :
    (∀ w, w ≠ u → w ≠ v → (Graph.add_edge g u v).st.nbr w = g.st.nbr w) ∧
    (∀ w ∈ g.keys, (Graph.add_edge g u v).st.ccId w = g.st.ccId w ∧
      (Graph.add_edge g u v).st.ccSet (g.st.ccId w) =
        g.st.ccSet (g.st.ccId w)) ∧
    (∀ w, w ≠ u → w ≠ v →
      (Graph.remove_edge g u v).1.st.nbr w = g.st.nbr w) ∧
    (Graph.remove_edge g u v).1.st.ccId = g.st.ccId ∧
    (Graph.remove_edge g u v).1.st.ccSet = g.st.ccSet :=
  ⟨fun w hwu hwv => graph_add_edge_nbr_frame g u v w hwu hwv,
    graph_add_edge_cc_frame g u v hf,
    fun w hwu hwv => graph_remove_edge_nbr_frame g u v w hwu hwv,
    (graph_remove_edge_st_cc g u v).1,
    (graph_remove_edge_st_cc g u v).2.1⟩

theorem claim_C9_witness :
    KeysFresh g1 ∧
    (∀ w, w ≠ 4 → w ≠ 5 → (Graph.add_edge g1 4 5).st.nbr w = g1.st.nbr w) := by
  have hf : KeysFresh g1 := by
    unfold KeysFresh
    decide
  exact ⟨hf, (claim_C9 g1 4 5 hf).1⟩

/-- Claim C10 (idempotent node creation): asking the wrapper for a key
it already holds returns that key's node and leaves the whole graph —
dictionary, neighbor sets, component data and allocator — unchanged. -/
theorem claim_C10 {g : Graph} {k : Nat} (h : k ∈ g.keys) :
    Graph.add_node g k = (g, k) :=
  graph_add_node_mem h

theorem claim_C10_witness :
    7 ∈ g1.keys ∧ Graph.add_node g1 7 = (g1, 7) :=
  ⟨by decide, claim_C10 (by decide)⟩
